import Mathlib

/-!
Verification of the maf_stream repository: a shallow embedding of its MAF
(multiple alignment format) data model, parser, serializer, range index,
coverage accumulator, consensus merger and column filter, with theorems
settling the specification claims.

Lines of text are modelled as lists of characters, Rust byte strings over
the ASCII data in play as lists of characters, and the `u64` fields as
natural numbers together with explicit bounds where the width matters.
-/

namespace MafStream

/-- Rust `char::is_whitespace` (the inputs in play are ASCII). -/
def isWS (c : Char) : Bool := c.isWhitespace

/-- Accumulator loop for `splitWS`; `acc` holds the current token reversed. -/
def splitWSAux : List Char → List Char → List (List Char)
  | [], acc => if acc = [] then [] else [acc.reverse]
  | c :: cs, acc =>
    if isWS c then
      if acc = [] then splitWSAux cs [] else acc.reverse :: splitWSAux cs []
    else splitWSAux cs (c :: acc)

/-- Rust `str::split_whitespace`: the maximal whitespace-free tokens of a
line, in order, empty pieces dropped. -/
def splitWS (l : List Char) : List (List Char) := splitWSAux l []

/-- Rust `str::split(sep)` (which keeps empty pieces); accumulator form. -/
def splitOnAux (sep : Char) : List Char → List Char → List (List Char)
  | [], acc => [acc.reverse]
  | c :: cs, acc =>
    if c = sep then acc.reverse :: splitOnAux sep cs []
    else splitOnAux sep cs (c :: acc)

def splitOnChar (sep : Char) (l : List Char) : List (List Char) :=
  splitOnAux sep l []

def isDigit (c : Char) : Bool := decide ('0' ≤ c) && decide (c ≤ '9')

/-- Numeric value of a digit string read left to right. -/
def valDigits (l : List Char) : Nat :=
  l.foldl (fun a c => 10 * a + (c.toNat - 48)) 0

/-- Rust `str::parse::<u64>()`: an optional leading `+`, then one or more
ASCII digits, the value required to fit in 64 bits. -/
def parseU64 (s : List Char) : Option Nat :=
  let s2 := if s.head? = some '+' then s.tail else s
  if s2 ≠ [] ∧ s2.all isDigit ∧ valDigits s2 < 2 ^ 64 then some (valDigits s2)
  else none

def digitChar (n : Nat) : Char := Char.ofNat (48 + n)

/-- Decimal rendering of a natural number, fuelled so that the recursion is
structural; `natToChars` supplies enough fuel. -/
def natToCharsAux : Nat → Nat → List Char
  | 0, _ => []
  | fuel + 1, n =>
    if n < 10 then [digitChar n]
    else natToCharsAux fuel (n / 10) ++ [digitChar (n % 10)]

/-- Rust's `Display` for unsigned integers: canonical decimal digits. -/
def natToChars (n : Nat) : List Char := natToCharsAux (n + 1) n

/-- Join tokens with single spaces, as the serializer's format strings do. -/
def joinSpaces (toks : List (List Char)) : List Char :=
  (toks.intersperse [' ']).flatten

/-- A well-formed field token: nonempty and whitespace-free, so that
tokenization recovers it exactly. -/
def isToken (t : List Char) : Bool := !t.isEmpty && t.all (fun c => !isWS c)

theorem isToken_iff (t : List Char) :
    isToken t = true ↔ t ≠ [] ∧ t.all (fun c => !isWS c) = true := by
  cases t <;> simp [isToken]

theorem splitWSAux_all_nonWS (t : List Char) (hts : t.all (fun c => !isWS c)) :
    ∀ acc rest, splitWSAux (t ++ rest) acc = splitWSAux rest (t.reverse ++ acc) := by
  induction t with
  | nil => intro acc rest; simp
  | cons c cs ih =>
    intro acc rest
    simp only [List.all_cons, Bool.and_eq_true, Bool.not_eq_true'] at hts
    simp only [List.cons_append, splitWSAux, hts.1, Bool.false_eq_true, if_false]
    have h2 := ih hts.2 (c :: acc) rest
    simp only [List.append_eq] at h2 ⊢
    rw [h2]
    simp

theorem splitWS_join (toks : List (List Char)) (h : ∀ t ∈ toks, isToken t) :
    splitWS (joinSpaces toks) = toks := by
  induction toks with
  | nil => rfl
  | cons t ts ih =>
    have ht := (isToken_iff t).mp (h t (List.mem_cons_self t ts))
    cases ts with
    | nil =>
      simp only [joinSpaces, List.intersperse, List.flatten, List.append_nil, splitWS]
      have h2 := splitWSAux_all_nonWS t ht.2 [] []
      simp only [List.append_nil] at h2
      rw [h2]
      simp only [splitWSAux, List.append_nil]
      have : t.reverse ≠ [] := by simpa using ht.1
      simp [this]
    | cons u us =>
      have hrest : ∀ x ∈ u :: us, isToken x := fun x hx => h x (List.mem_cons_of_mem _ hx)
      simp only [joinSpaces] at ih ⊢
      have hj : (List.intersperse [' '] (t :: u :: us)).flatten
          = t ++ ' ' :: (List.intersperse [' '] (u :: us)).flatten := by
        simp [List.intersperse]
      rw [splitWS, hj, splitWSAux_all_nonWS t ht.2]
      simp only [List.append_nil, splitWSAux]
      have hsp : isWS ' ' = true := by decide
      have : t.reverse ≠ [] := by simpa using ht.1
      rw [hsp]
      simp only [if_true, this, if_false, List.reverse_reverse]
      rw [← splitWS, ih hrest]

theorem isWS_of_isDigit (c : Char) (h : isDigit c = true) : isWS c = false := by
  simp only [isDigit, Bool.and_eq_true, decide_eq_true_eq] at h
  obtain ⟨h1, h2⟩ := h
  simp only [isWS, Char.isWhitespace, Bool.or_eq_false_iff, decide_eq_false_iff_not]
  refine ⟨⟨⟨?_, ?_⟩, ?_⟩, ?_⟩ <;> (rintro rfl; exact absurd h1 (by decide))

theorem toNat_digitChar (n : Nat) (h : n < 10) : (digitChar n).toNat = 48 + n := by
  interval_cases n <;> decide

theorem isDigit_digitChar (n : Nat) (h : n < 10) : isDigit (digitChar n) = true := by
  interval_cases n <;> decide

theorem valDigits_append_digit (a : List Char) (c : Char) :
    valDigits (a ++ [c]) = 10 * valDigits a + (c.toNat - 48) := by
  simp [valDigits, List.foldl_append]

theorem natToCharsAux_spec (fuel : Nat) :
    ∀ n, n < fuel →
      natToCharsAux fuel n ≠ [] ∧
      (natToCharsAux fuel n).all isDigit = true ∧
      valDigits (natToCharsAux fuel n) = n := by
  induction fuel with
  | zero => intro n h; omega
  | succ fuel ih =>
    intro n h
    by_cases h10 : n < 10
    · simp [natToCharsAux, h10, valDigits, isDigit_digitChar n h10,
        toNat_digitChar n h10]
    · have hdiv : n / 10 < fuel := by omega
      obtain ⟨ih1, ih2, ih3⟩ := ih (n / 10) hdiv
      simp only [natToCharsAux, h10, if_false]
      refine ⟨by simp, ?_, ?_⟩
      · simp only [List.all_append, ih2, Bool.true_and, List.all_cons, List.all_nil,
          Bool.and_true]
        exact isDigit_digitChar (n % 10) (by omega)
      · rw [valDigits_append_digit, ih3, toNat_digitChar (n % 10) (by omega)]
        omega

theorem natToChars_spec (n : Nat) :
    natToChars n ≠ [] ∧ (natToChars n).all isDigit = true ∧
      valDigits (natToChars n) = n :=
  natToCharsAux_spec (n + 1) n (by omega)

theorem isToken_natToChars (n : Nat) : isToken (natToChars n) = true := by
  obtain ⟨h1, h2, _⟩ := natToChars_spec n
  rw [isToken_iff]
  refine ⟨h1, ?_⟩
  rw [List.all_eq_true] at h2 ⊢
  intro c hc
  simp [isWS_of_isDigit c (h2 c hc)]

theorem parseU64_natToChars (n : Nat) (h : n < 2 ^ 64) :
    parseU64 (natToChars n) = some n := by
  obtain ⟨h1, h2, h3⟩ := natToChars_spec n
  obtain ⟨c, rest, hc⟩ : ∃ c rest, natToChars n = c :: rest := by
    cases hcn : natToChars n with
    | nil => exact absurd hcn h1
    | cons c rest => exact ⟨c, rest, rfl⟩
  have hcd : isDigit c = true := by
    rw [List.all_eq_true] at h2
    exact h2 c (hc ▸ List.mem_cons_self c rest)
  have hcp : c ≠ '+' := by
    rintro rfl
    exact absurd hcd (by decide)
  rw [parseU64]
  have hs2 : (if (natToChars n).head? = some '+' then (natToChars n).tail
      else natToChars n) = natToChars n := by
    rw [hc]
    simp [hcp]
  simp only [hs2]
  simp [h1, h2, h3]
  omega

/-! ## Data model (multiple_alignment_format/src/lib.rs) -/

/-- Indicates one of the two strands. -/
inductive Strand
  | positive
  | negative
deriving DecidableEq, Repr

inductive AlignedContextStatus
  | contiguous
  | insertion
  | firstInSequence
  | firstInSequenceBridged
  | missingData
  | alreadyUsed
deriving DecidableEq, Repr

inductive UnalignedContextStatus
  | deletion
  | insertion
  | missingData
  | newSequence
  | alreadyUsed
deriving DecidableEq, Repr

/-- Corresponds to the `i` line. -/
structure AlignedContext where
  leftStatus : AlignedContextStatus
  leftCount : Nat
  rightStatus : AlignedContextStatus
  rightCount : Nat
deriving DecidableEq, Repr

/-- An alignment entry within a MAF block (`s` line, plus `i`/`q` data). -/
structure MAFBlockAlignedEntry where
  alignment : List Char
  seq : List Char
  start : Nat
  alignedLength : Nat
  sequenceSize : Nat
  strand : Strand
  context : Option AlignedContext
  qualities : Option (List Nat)
deriving DecidableEq, Repr

/-- An unaligned entry bridged by a chain (`e` line). -/
structure MAFBlockUnalignedEntry where
  seq : List Char
  start : Nat
  size : Nat
  strand : Strand
  sequenceSize : Nat
  status : UnalignedContextStatus
deriving DecidableEq, Repr

inductive MAFBlockEntry
  | alignedEntry (e : MAFBlockAlignedEntry)
  | unalignedEntry (e : MAFBlockUnalignedEntry)
deriving DecidableEq, Repr

/-- A MAF alignment block; the `BTreeMap` of metadata is modelled as an
association list kept sorted by key. -/
structure MAFBlock where
  entries : List MAFBlockEntry
  metadata : List (List Char × List Char)
deriving DecidableEq, Repr

inductive MAFItem
  | block (b : MAFBlock)
  | comment (text : List Char)
deriving DecidableEq, Repr

/-- `MAFBlock::aligned_entries`. -/
def MAFBlock.alignedEntries (b : MAFBlock) : List MAFBlockAlignedEntry :=
  b.entries.filterMap (fun e => match e with
    | .alignedEntry a => some a
    | _ => none)

/-! ## Parser (multiple_alignment_format/src/parser.rs) -/

inductive MAFParseError
  | ioError
  | unexpectedLine (line : List Char)
  | badMetadata
  | badLineType (tag : List Char)
  | misc (msg : String)
  | eof
deriving DecidableEq, Repr

/-- Result of running parsing code that may also panic (Rust index/`expect`
panics are modelled explicitly so aborts stay observable). -/
inductive POut (α : Type)
  | ok (a : α)
  | err (e : MAFParseError)
  | panic (msg : String)
deriving DecidableEq, Repr

/-- Strict lexicographic order on character lists (Rust's `Ord` on `String`,
restricted to the ASCII inputs in play). -/
def lexLtChars : List Char → List Char → Bool
  | [], [] => false
  | [], _ :: _ => true
  | _ :: _, [] => false
  | a :: as, b :: bs => if a < b then true else if b < a then false else lexLtChars as bs

/-- `BTreeMap::insert` on the sorted association list: overwrite on an
equal key, otherwise keep the list sorted. -/
def mapInsert (k v : List Char) : List (List Char × List Char) →
    List (List Char × List Char)
  | [] => [(k, v)]
  | (k2, v2) :: rest =>
    if lexLtChars k k2 then (k, v) :: (k2, v2) :: rest
    else if lexLtChars k2 k then (k2, v2) :: mapInsert k v rest
    else (k, v) :: rest

/-- `split_metadata_pairs`: from `key=value` to `(key, value)`; pieces after
a second `=` are dropped by the source's two `iter.next()` calls. -/
def splitMetadataPair (pair : List Char) : Except MAFParseError (List Char × List Char) :=
  match splitOnChar '=' pair with
  | [] => .error .badMetadata
  | [_] => .error .badMetadata
  | k :: v :: _ => .ok (k, v)

def collectMetadata : List (List Char) → List (List Char × List Char) →
    Except MAFParseError (List (List Char × List Char))
  | [], acc => .ok acc
  | p :: ps, acc =>
    match splitMetadataPair p with
    | .error e => .error e
    | .ok (k, v) => collectMetadata ps (mapInsert k v acc)

/-- `metadata_from_header`: header tokens after the leading `a`, each parsed
as `key=value` and collected into the metadata map. -/
def metadataFromHeader (header : List Char) :
    Except MAFParseError (List (List Char × List Char)) :=
  collectMetadata ((splitWS header).drop 1) []

def parseStrand (strand : List Char) : Except MAFParseError Strand :=
  if strand = ['+'] then .ok .positive
  else if strand = ['-'] then .ok .negative
  else .error (.misc "Strand not valid")

def parseAlignedContextStatus (status : List Char) :
    Except MAFParseError AlignedContextStatus :=
  if status = ['C'] then .ok .contiguous
  else if status = ['I'] then .ok .insertion
  else if status = ['N'] then .ok .firstInSequence
  else if status = ['n'] then .ok .firstInSequenceBridged
  else if status = ['M'] then .ok .missingData
  else if status = ['T'] then .ok .alreadyUsed
  else .error (.misc "invalid aligned context status")

/-- `update_from_s_line`: pop the six fields off the end of the token list
(the leading tag token and any extra leading tokens are ignored). -/
def updateFromSLine (fields : List (List Char)) (entries : List MAFBlockEntry) :
    Except MAFParseError (List MAFBlockEntry) :=
  match fields.reverse with
  | [] => .error (.misc "s line incomplete")
  | alignment :: r1 =>
    match r1 with
    | [] => .error (.misc "s line incomplete")
    | sizeTok :: r2 =>
      match parseU64 sizeTok with
      | none => .error (.misc "invalid sequence size")
      | some sequenceSize =>
        match r2 with
        | [] => .error (.misc "s line incomplete")
        | strandTok :: r3 =>
          match parseStrand strandTok with
          | .error e => .error e
          | .ok strand =>
            match r3 with
            | [] => .error (.misc "s line incomplete")
            | lenTok :: r4 =>
              match parseU64 lenTok with
              | none => .error (.misc "invalid aligned length")
              | some alignedLength =>
                match r4 with
                | [] => .error (.misc "s line incomplete")
                | startTok :: r5 =>
                  match parseU64 startTok with
                  | none => .error (.misc "invalid start")
                  | some start =>
                    match r5 with
                    | [] => .error (.misc "s line incomplete")
                    | seq :: _ =>
                      .ok (entries ++ [.alignedEntry {
                        alignment := alignment
                        seq := seq
                        start := start
                        alignedLength := alignedLength
                        sequenceSize := sequenceSize
                        strand := strand
                        context := none
                        qualities := none }])

/-- `update_from_i_line`: pop the five fields, then attach the decoded
context to the most recently appended entry. -/
def updateFromILine (fields : List (List Char)) (entries : List MAFBlockEntry) :
    Except MAFParseError (List MAFBlockEntry) :=
  match fields.reverse with
  | [] => .error (.misc "i line incomplete")
  | rightCountTok :: r1 =>
    match parseU64 rightCountTok with
    | none => .error (.misc "invalid right count")
    | some rightCount =>
      match r1 with
      | [] => .error (.misc "i line incomplete")
      | rightStatusTok :: r2 =>
        match parseAlignedContextStatus rightStatusTok with
        | .error e => .error e
        | .ok rightStatus =>
          match r2 with
          | [] => .error (.misc "i line incomplete")
          | leftCountTok :: r3 =>
            match parseU64 leftCountTok with
            | none => .error (.misc "invalid left count")
            | some leftCount =>
              match r3 with
              | [] => .error (.misc "i line incomplete")
              | leftStatusTok :: r4 =>
                match parseAlignedContextStatus leftStatusTok with
                | .error e => .error e
                | .ok leftStatus =>
                  match r4 with
                  | [] => .error (.misc "i line incomplete")
                  | seq :: _ =>
                    let context : AlignedContext :=
                      { leftStatus := leftStatus
                        leftCount := leftCount
                        rightStatus := rightStatus
                        rightCount := rightCount }
                    match entries.getLast? with
                    | none => .error (.unexpectedLine
                        "i line cannot be first in block".toList)
                    | some (.alignedEntry e) =>
                      if e.seq ≠ seq then
                        .error (.unexpectedLine
                          "i line must follow a corresponding s line".toList)
                      else
                        .ok (entries.dropLast ++
                          [.alignedEntry { e with context := some context }])
                    | some (.unalignedEntry _) =>
                      .error (.unexpectedLine
                        "i line must follow a corresponding s line".toList)

def parseUnalignedStatus (status : List Char) :
    Except MAFParseError UnalignedContextStatus :=
  if status = ['C'] then .ok .deletion
  else if status = ['I'] then .ok .insertion
  else if status = ['M'] then .ok .missingData
  else if status = ['n'] then .ok .newSequence
  else if status = ['T'] then .ok .alreadyUsed
  else .error (.misc "invalid unaligned context status character")

/-- `update_from_e_line`: pop the six fields and append an unaligned entry. -/
def updateFromELine (fields : List (List Char)) (entries : List MAFBlockEntry) :
    Except MAFParseError (List MAFBlockEntry) :=
  match fields.reverse with
  | [] => .error (.misc "e line incomplete")
  | statusTok :: r1 =>
    match r1 with
    | [] => .error (.misc "e line incomplete")
    | sizeTok :: r2 =>
      match parseU64 sizeTok with
      | none => .error (.misc "invalid sequence size")
      | some sequenceSize =>
        match r2 with
        | [] => .error (.misc "e line incomplete")
        | strandTok :: r3 =>
          match parseStrand strandTok with
          | .error e => .error e
          | .ok strand =>
            match r3 with
            | [] => .error (.misc "e line incomplete")
            | lenTok :: r4 =>
              match parseU64 lenTok with
              | none => .error (.misc "invalid unaligned length")
              | some size =>
                match r4 with
                | [] => .error (.misc "e line incomplete")
                | startTok :: r5 =>
                  match parseU64 startTok with
                  | none => .error (.misc "invalid start")
                  | some start =>
                    match r5 with
                    | [] => .error (.misc "e line incomplete")
                    | seq :: _ =>
                      match parseUnalignedStatus statusTok with
                      | .error e => .error e
                      | .ok status =>
                        .ok (entries ++ [.unalignedEntry {
                          seq := seq
                          start := start
                          size := size
                          strand := strand
                          sequenceSize := sequenceSize
                          status := status }])

/-- The body loop of `parse_block`: consume lines until a blank line or the
end of input; `fields[0]` on an all-whitespace line is an index panic. -/
def parseBlockLoop : List (List Char) → List MAFBlockEntry →
    POut (List MAFBlockEntry × List (List Char))
  | [], entries => .ok (entries, [])
  | line :: rest, entries =>
    if line.isEmpty then .ok (entries, rest)
    else
      match splitWS line with
      | [] => .panic "index out of bounds"
      | tag :: others =>
        let fields := tag :: others
        if tag = ['s'] then
          match updateFromSLine fields entries with
          | .error e => .err e
          | .ok entries2 => parseBlockLoop rest entries2
        else if tag = ['i'] then
          match updateFromILine fields entries with
          | .error e => .err e
          | .ok entries2 => parseBlockLoop rest entries2
        else if tag = ['e'] then
          match updateFromELine fields entries with
          | .error e => .err e
          | .ok entries2 => parseBlockLoop rest entries2
        else .err (.badLineType tag)

/-- `parse_block`: metadata from the header, then the body loop; also
returns the lines left unconsumed by the block's paragraph. -/
def parseBlock (header : List Char) (lines : List (List Char)) :
    POut (MAFBlock × List (List Char)) :=
  match metadataFromHeader header with
  | .error e => .err e
  | .ok md =>
    match parseBlockLoop lines [] with
    | .panic m => .panic m
    | .err e => .err e
    | .ok (entries, rest) => .ok ({ entries := entries, metadata := md }, rest)

/-- `next_maf_item` over the remaining lines of the input: skip blank lines,
a `#` line is a comment, an `a` line opens a block, anything else errs; an
exhausted input is `EOF`. -/
def nextMafItem : List (List Char) → POut (MAFItem × List (List Char))
  | [] => .err .eof
  | line :: rest =>
    if line.all isWS then nextMafItem rest
    else if line.head? = some '#' then .ok (.comment line.tail, rest)
    else if line.head? = some 'a' then
      match parseBlock line rest with
      | .panic m => .panic m
      | .err e => .err e
      | .ok (b, rest2) => .ok (.block b, rest2)
    else .err (.unexpectedLine line)

/-- The logical lines of a text, as the `LinesRef` reader produces them:
split at each newline, strip a trailing carriage return, and a final
fragment after the last newline is a line of its own. -/
def stripCR (l : List Char) : List Char :=
  if l.getLast? = some '\r' then l.dropLast else l

def toLinesAux : List Char → List Char → List (List Char)
  | [], acc => if acc = [] then [] else [stripCR acc.reverse]
  | c :: cs, acc =>
    if c = '\n' then stripCR acc.reverse :: toLinesAux cs []
    else toLinesAux cs (c :: acc)

def toLines (text : List Char) : List (List Char) := toLinesAux text []

/-! ## Serializer (multiple_alignment_format/src/output.rs) -/

def strandChar (s : Strand) : Char :=
  match s with
  | .positive => '+'
  | .negative => '-'

def alignedContextStatusChar (s : AlignedContextStatus) : Char :=
  match s with
  | .contiguous => 'C'
  | .insertion => 'I'
  | .firstInSequence => 'N'
  | .firstInSequenceBridged => 'n'
  | .missingData => 'M'
  | .alreadyUsed => 'T'

def unalignedContextStatusChar (s : UnalignedContextStatus) : Char :=
  match s with
  | .deletion => 'C'
  | .insertion => 'I'
  | .missingData => 'M'
  | .newSequence => 'n'
  | .alreadyUsed => 'T'

/-- The lines `fmt::Display for MAFBlock` writes for one entry. -/
def entryLines (entry : MAFBlockEntry) : List (List Char) :=
  match entry with
  | .alignedEntry e =>
    joinSpaces [['s'], e.seq, natToChars e.start, natToChars e.alignedLength,
      [strandChar e.strand], natToChars e.sequenceSize, e.alignment] ::
    (match e.context with
     | none => []
     | some c =>
       [joinSpaces [['i'], e.seq, [alignedContextStatusChar c.leftStatus],
         natToChars c.leftCount, [alignedContextStatusChar c.rightStatus],
         natToChars c.rightCount]])
  | .unalignedEntry e =>
    [joinSpaces [['e'], e.seq, natToChars e.start, natToChars e.size,
      [strandChar e.strand], natToChars e.sequenceSize,
      [unalignedContextStatusChar e.status]]]

/-- All lines `fmt::Display for MAFBlock` writes: the `a` header with the
metadata pairs in map order, the entry lines, then a terminating blank. -/
def serializeBlockLines (b : MAFBlock) : List (List Char) :=
  joinSpaces (['a'] :: b.metadata.map (fun p => p.1 ++ '=' :: p.2)) ::
    (b.entries.flatMap entryLines ++ [[]])

/-- The serialized text: each line followed by a newline. -/
def serializeBlock (b : MAFBlock) : List Char :=
  ((serializeBlockLines b).map (fun l => l ++ ['\n'])).flatten

/-! ## Round-trip lemmas: tokenization of serialized lines -/

theorem joinSpaces_nil : joinSpaces [] = [] := rfl

theorem joinSpaces_single (t : List Char) : joinSpaces [t] = t := by
  simp [joinSpaces, List.intersperse]

theorem joinSpaces_cons_cons (t u : List Char) (us : List (List Char)) :
    joinSpaces (t :: u :: us) = t ++ ' ' :: joinSpaces (u :: us) := by
  simp [joinSpaces, List.intersperse]

theorem joinSpaces_cons_ne_nil (t : List Char) (ts : List (List Char))
    (h : t ≠ []) : joinSpaces (t :: ts) ≠ [] := by
  cases ts with
  | nil => simpa [joinSpaces_single]
  | cons u us => simp [joinSpaces_cons_cons, h]

theorem splitOnAux_no_sep (sep : Char) (t : List Char)
    (ht : sep ∉ t) :
    ∀ acc rest, splitOnAux sep (t ++ rest) acc = splitOnAux sep rest (t.reverse ++ acc) := by
  induction t with
  | nil => intro acc rest; simp
  | cons c cs ih =>
    intro acc rest
    have hc : ¬(c = sep) := fun h => ht (h ▸ List.mem_cons_self c cs)
    have hcs : sep ∉ cs := fun h => ht (List.mem_cons_of_mem c h)
    simp only [List.cons_append, splitOnAux, hc, if_false]
    have h2 := ih hcs (c :: acc) rest
    simp only [List.append_eq] at h2 ⊢
    rw [h2]
    simp

theorem splitOnChar_pair (k v : List Char) (hk : '=' ∉ k) (hv : '=' ∉ v) :
    splitOnChar '=' (k ++ '=' :: v) = [k, v] := by
  rw [splitOnChar, splitOnAux_no_sep '=' k hk [] ('=' :: v)]
  simp only [splitOnAux, if_pos rfl, List.append_nil, List.reverse_reverse]
  have h2 := splitOnAux_no_sep '=' v hv [] []
  simp only [List.append_nil] at h2
  rw [h2]
  simp [splitOnAux]

theorem splitMetadataPair_rt (k v : List Char) (hk : '=' ∉ k) (hv : '=' ∉ v) :
    splitMetadataPair (k ++ '=' :: v) = .ok (k, v) := by
  rw [splitMetadataPair, splitOnChar_pair k v hk hv]

/-! Order facts about `lexLtChars`, used for the metadata map. -/

theorem lexLtChars_asymm : ∀ a b : List Char,
    lexLtChars a b = true → lexLtChars b a = false := by
  intro a
  induction a with
  | nil => intro b h; cases b <;> simp_all [lexLtChars]
  | cons c cs ih =>
    intro b h
    cases b with
    | nil => simp [lexLtChars] at h
    | cons d ds =>
      simp only [lexLtChars] at h ⊢
      rcases lt_trichotomy c d with hlt | heq | hgt
      · simp [hlt, not_lt_of_lt hlt, ne_of_gt hlt]
      · subst heq
        simp only [lt_irrefl, if_false] at h ⊢
        exact ih ds h
      · simp [hgt, not_lt_of_lt hgt] at h

theorem mapInsert_append (k v : List Char) (acc : List (List Char × List Char))
    (h : ∀ q ∈ acc, lexLtChars q.1 k = true) :
    mapInsert k v acc = acc ++ [(k, v)] := by
  induction acc with
  | nil => rfl
  | cons q rest ih =>
    obtain ⟨k2, v2⟩ := q
    have hq := h (k2, v2) (List.mem_cons_self _ _)
    simp only [mapInsert, lexLtChars_asymm k2 k hq, Bool.false_eq_true, if_false, hq,
      if_true, List.cons_append]
    rw [ih (fun q hq2 => h q (List.mem_cons_of_mem _ hq2))]

theorem collectMetadata_sorted (md : List (List Char × List Char)) :
    ∀ acc, List.Pairwise (fun p q => lexLtChars p.1 q.1 = true) md →
    (∀ p ∈ md, '=' ∉ p.1 ∧ '=' ∉ p.2) →
    (∀ p ∈ md, ∀ q ∈ acc, lexLtChars q.1 p.1 = true) →
    collectMetadata (md.map (fun p => p.1 ++ '=' :: p.2)) acc = .ok (acc ++ md) := by
  induction md with
  | nil => intro acc _ _ _; simp [collectMetadata]
  | cons p rest ih =>
    intro acc hsort heq hacc
    obtain ⟨k, v⟩ := p
    obtain ⟨hk, hv⟩ := heq (k, v) (List.mem_cons_self _ _)
    simp only [List.map_cons, collectMetadata, splitMetadataPair_rt k v hk hv]
    rw [mapInsert_append k v acc (fun q hq => hacc (k, v) (List.mem_cons_self _ _) q hq)]
    rw [ih (acc ++ [(k, v)]) (List.Pairwise.of_cons hsort)
      (fun q hq => heq q (List.mem_cons_of_mem _ hq))
      ?_]
    · simp
    · intro p2 hp2 q hq
      rcases List.mem_append.mp hq with hq1 | hq2
      · exact hacc p2 (List.mem_cons_of_mem _ hp2) q hq1
      · have : q = (k, v) := by simpa using hq2
        subst this
        exact (List.pairwise_cons.mp hsort).1 p2 hp2

/-! ## Well-formed blocks: the canonical image of the serializer -/

/-- A well-formed metadata pair: whitespace-free and `=`-free key and value,
so the serialized `key=value` token parses back to the same pair. -/
def WFPair (p : List Char × List Char) : Prop :=
  '=' ∉ p.1 ∧ '=' ∉ p.2 ∧
  p.1.all (fun c => !isWS c) = true ∧ p.2.all (fun c => !isWS c) = true

/-- The context counts, when present, fit in 64 bits. -/
def ctxBound : Option AlignedContext → Bool
  | none => true
  | some c => decide (c.leftCount < 2 ^ 64) && decide (c.rightCount < 2 ^ 64)

/-- A well-formed aligned entry: token-shaped `seq` and `alignment`, numeric
fields in `u64` range, no quality data (the serializer never writes any). -/
def WFAligned (e : MAFBlockAlignedEntry) : Prop :=
  isToken e.seq = true ∧ isToken e.alignment = true ∧
  e.start < 2 ^ 64 ∧ e.alignedLength < 2 ^ 64 ∧ e.sequenceSize < 2 ^ 64 ∧
  e.qualities = none ∧ ctxBound e.context = true

def WFUnaligned (e : MAFBlockUnalignedEntry) : Prop :=
  isToken e.seq = true ∧
  e.start < 2 ^ 64 ∧ e.size < 2 ^ 64 ∧ e.sequenceSize < 2 ^ 64

def WFEntry : MAFBlockEntry → Prop
  | .alignedEntry e => WFAligned e
  | .unalignedEntry e => WFUnaligned e

/-- A well-formed block: well-formed entries and a strictly key-sorted
metadata list of well-formed pairs (the invariant of the `BTreeMap`). -/
def WFBlock (b : MAFBlock) : Prop :=
  (∀ e ∈ b.entries, WFEntry e) ∧
  List.Pairwise (fun p q => lexLtChars p.1 q.1 = true) b.metadata ∧
  (∀ p ∈ b.metadata, WFPair p)

theorem isToken_pair_token (p : List Char × List Char) (h : WFPair p) :
    isToken (p.1 ++ '=' :: p.2) = true := by
  obtain ⟨_, _, h1, h2⟩ := h
  rw [isToken_iff]
  constructor
  · simp
  · rw [List.all_eq_true] at h1 h2 ⊢
    intro c hc
    rcases List.mem_append.mp hc with h | h
    · exact h1 c h
    · rcases List.mem_cons.mp h with rfl | h
      · decide
      · exact h2 c h

theorem metadataFromHeader_rt (md : List (List Char × List Char))
    (hsort : List.Pairwise (fun p q => lexLtChars p.1 q.1 = true) md)
    (hwf : ∀ p ∈ md, WFPair p) :
    metadataFromHeader (joinSpaces (['a'] :: md.map (fun p => p.1 ++ '=' :: p.2)))
      = .ok md := by
  rw [metadataFromHeader, splitWS_join]
  · simp only [List.drop_succ_cons, List.drop_zero]
    have := collectMetadata_sorted md [] hsort
      (fun p hp => ⟨(hwf p hp).1, (hwf p hp).2.1⟩) (by simp)
    simpa using this
  · intro t ht
    rcases List.mem_cons.mp ht with rfl | ht2
    · decide
    · obtain ⟨p, hp, rfl⟩ := List.mem_map.mp ht2
      exact isToken_pair_token p (hwf p hp)

theorem isToken_strandChar (s : Strand) : isToken [strandChar s] = true := by
  cases s <;> decide

theorem parseStrand_rt (s : Strand) : parseStrand [strandChar s] = .ok s := by
  cases s <;> rfl

theorem isToken_acs (s : AlignedContextStatus) :
    isToken [alignedContextStatusChar s] = true := by
  cases s <;> decide

theorem parseACS_rt (s : AlignedContextStatus) :
    parseAlignedContextStatus [alignedContextStatusChar s] = .ok s := by
  cases s <;> rfl

theorem isToken_ucs (s : UnalignedContextStatus) :
    isToken [unalignedContextStatusChar s] = true := by
  cases s <;> decide

theorem parseUCS_rt (s : UnalignedContextStatus) :
    parseUnalignedStatus [unalignedContextStatusChar s] = .ok s := by
  cases s <;> rfl

theorem isToken_tag (c : Char) (h : isWS c = false) : isToken [c] = true := by
  simp [isToken, h]

theorem isEmpty_false_of_ne_nil {α : Type} (l : List α) (h : l ≠ []) :
    l.isEmpty = false := by
  cases l with
  | nil => exact absurd rfl h
  | cons a as => rfl

theorem updateFromSLine_rt (e : MAFBlockAlignedEntry)
    (entries : List MAFBlockEntry) (h : WFAligned e) :
    updateFromSLine [['s'], e.seq, natToChars e.start, natToChars e.alignedLength,
      [strandChar e.strand], natToChars e.sequenceSize, e.alignment] entries =
    .ok (entries ++ [.alignedEntry { e with context := none, qualities := none }]) := by
  obtain ⟨hseq, hal, hs, hl, hss, hq, hctx⟩ := h
  simp only [updateFromSLine, List.reverse_cons, List.reverse_nil, List.nil_append,
    List.cons_append, List.append_nil, parseU64_natToChars _ hss, parseStrand_rt,
    parseU64_natToChars _ hl, parseU64_natToChars _ hs]

theorem updateFromILine_rt (e : MAFBlockAlignedEntry) (c : AlignedContext)
    (entries : List MAFBlockEntry) (h : WFAligned e) (hc : e.context = some c) :
    updateFromILine [['i'], e.seq, [alignedContextStatusChar c.leftStatus],
      natToChars c.leftCount, [alignedContextStatusChar c.rightStatus],
      natToChars c.rightCount]
      (entries ++ [.alignedEntry { e with context := none, qualities := none }]) =
    .ok (entries ++ [.alignedEntry e]) := by
  obtain ⟨hseq, hal, hs, hl, hss, hq, hctx⟩ := h
  rw [hc] at hctx
  have hlc : c.leftCount < 2 ^ 64 := by
    simpa [ctxBound] using And.left (by simpa [ctxBound] using hctx)
  have hrc : c.rightCount < 2 ^ 64 := by
    simpa [ctxBound] using And.right (by simpa [ctxBound] using hctx)
  simp only [updateFromILine, List.reverse_cons, List.reverse_nil, List.nil_append,
    List.cons_append, List.append_nil, parseU64_natToChars _ hrc, parseACS_rt,
    parseU64_natToChars _ hlc, List.getLast?_concat, List.dropLast_concat]
  have hrec : ({ e with context := none, qualities := none } :
      MAFBlockAlignedEntry).seq ≠ e.seq ↔ False := by simp
  simp only [hrec, if_false, ne_eq, not_true_eq_false, reduceIte]
  have : ({ alignment := e.alignment, seq := e.seq, start := e.start,
            alignedLength := e.alignedLength, sequenceSize := e.sequenceSize,
            strand := e.strand,
            context := some ({ leftStatus := c.leftStatus, leftCount := c.leftCount,
                               rightStatus := c.rightStatus,
                               rightCount := c.rightCount } : AlignedContext),
            qualities := none } : MAFBlockAlignedEntry) = e := by
    cases e with
    | mk alignment seq start alignedLength sequenceSize strand context qualities =>
      cases c with
      | mk ls lc rs rc =>
        simp only [MAFBlockAlignedEntry.mk.injEq] at hc hq ⊢
        simp_all
  rw [this]

theorem updateFromELine_rt (e : MAFBlockUnalignedEntry)
    (entries : List MAFBlockEntry) (h : WFUnaligned e) :
    updateFromELine [['e'], e.seq, natToChars e.start, natToChars e.size,
      [strandChar e.strand], natToChars e.sequenceSize,
      [unalignedContextStatusChar e.status]] entries =
    .ok (entries ++ [.unalignedEntry e]) := by
  obtain ⟨hseq, hs, hl, hss⟩ := h
  simp only [updateFromELine, List.reverse_cons, List.reverse_nil, List.nil_append,
    List.cons_append, List.append_nil, parseU64_natToChars _ hss, parseStrand_rt,
    parseU64_natToChars _ hl, parseU64_natToChars _ hs, parseUCS_rt]

theorem splitWS_sLine (e : MAFBlockAlignedEntry) (h : WFAligned e) :
    splitWS (joinSpaces [['s'], e.seq, natToChars e.start, natToChars e.alignedLength,
      [strandChar e.strand], natToChars e.sequenceSize, e.alignment]) =
    [['s'], e.seq, natToChars e.start, natToChars e.alignedLength,
      [strandChar e.strand], natToChars e.sequenceSize, e.alignment] := by
  obtain ⟨hseq, hal, _, _, _, _, _⟩ := h
  apply splitWS_join
  intro t ht
  simp only [List.mem_cons, List.not_mem_nil, or_false] at ht
  rcases ht with rfl | rfl | rfl | rfl | rfl | rfl | rfl
  · decide
  · exact hseq
  · exact isToken_natToChars _
  · exact isToken_natToChars _
  · exact isToken_strandChar _
  · exact isToken_natToChars _
  · exact hal

theorem splitWS_iLine (e : MAFBlockAlignedEntry) (c : AlignedContext)
    (h : WFAligned e) :
    splitWS (joinSpaces [['i'], e.seq, [alignedContextStatusChar c.leftStatus],
      natToChars c.leftCount, [alignedContextStatusChar c.rightStatus],
      natToChars c.rightCount]) =
    [['i'], e.seq, [alignedContextStatusChar c.leftStatus], natToChars c.leftCount,
      [alignedContextStatusChar c.rightStatus], natToChars c.rightCount] := by
  obtain ⟨hseq, _, _, _, _, _, _⟩ := h
  apply splitWS_join
  intro t ht
  simp only [List.mem_cons, List.not_mem_nil, or_false] at ht
  rcases ht with rfl | rfl | rfl | rfl | rfl | rfl
  · decide
  · exact hseq
  · exact isToken_acs _
  · exact isToken_natToChars _
  · exact isToken_acs _
  · exact isToken_natToChars _

theorem splitWS_eLine (e : MAFBlockUnalignedEntry) (h : WFUnaligned e) :
    splitWS (joinSpaces [['e'], e.seq, natToChars e.start, natToChars e.size,
      [strandChar e.strand], natToChars e.sequenceSize,
      [unalignedContextStatusChar e.status]]) =
    [['e'], e.seq, natToChars e.start, natToChars e.size,
      [strandChar e.strand], natToChars e.sequenceSize,
      [unalignedContextStatusChar e.status]] := by
  obtain ⟨hseq, _, _, _⟩ := h
  apply splitWS_join
  intro t ht
  simp only [List.mem_cons, List.not_mem_nil, or_false] at ht
  rcases ht with rfl | rfl | rfl | rfl | rfl | rfl | rfl
  · decide
  · exact hseq
  · exact isToken_natToChars _
  · exact isToken_natToChars _
  · exact isToken_strandChar _
  · exact isToken_natToChars _
  · exact isToken_ucs _

theorem parseBlockLoop_serialized (entries : List MAFBlockEntry) :
    ∀ acc more, (∀ e ∈ entries, WFEntry e) →
      parseBlockLoop (entries.flatMap entryLines ++ [] :: more) acc =
        .ok (acc ++ entries, more) := by
  induction entries with
  | nil =>
    intro acc more _
    simp [parseBlockLoop]
  | cons ent rest ih =>
    intro acc more h
    have hent : WFEntry ent := h ent (List.mem_cons_self _ _)
    have hrest : ∀ e ∈ rest, WFEntry e := fun e he => h e (List.mem_cons_of_mem _ he)
    cases ent with
    | alignedEntry e =>
      have he : WFAligned e := hent
      cases hc : e.context with
      | none =>
        have hq := he.2.2.2.2.2.1
        simp only [List.flatMap_cons, entryLines, hc, List.append_nil,
          List.cons_append, List.nil_append]
        rw [parseBlockLoop]
        rw [isEmpty_false_of_ne_nil _ (joinSpaces_cons_ne_nil _ _ (by simp))]
        simp only [Bool.false_eq_true, if_false, splitWS_sLine e he, reduceIte,
          updateFromSLine_rt e acc he]
        have hee : ({ e with context := none, qualities := none } :
            MAFBlockAlignedEntry) = e := by
          cases e
          simp_all
        rw [hee]
        have := ih (acc ++ [MAFBlockEntry.alignedEntry e]) more hrest
        simpa using this
      | some c =>
        have hq := he.2.2.2.2.2.1
        simp only [List.flatMap_cons, entryLines, hc, List.cons_append, List.nil_append]
        rw [parseBlockLoop]
        rw [isEmpty_false_of_ne_nil _ (joinSpaces_cons_ne_nil _ _ (by simp))]
        simp only [Bool.false_eq_true, if_false, splitWS_sLine e he, reduceIte,
          updateFromSLine_rt e acc he]
        rw [parseBlockLoop]
        rw [isEmpty_false_of_ne_nil _ (joinSpaces_cons_ne_nil _ _ (by simp))]
        simp only [Bool.false_eq_true, if_false, splitWS_iLine e c he]
        have hii : (['i'] = ['s']) = False := by simp
        have hie : (['i'] = ['i']) = True := by simp
        simp only [hii, if_false, hie, if_true, updateFromILine_rt e c acc he hc]
        have := ih (acc ++ [MAFBlockEntry.alignedEntry e]) more hrest
        simpa using this
    | unalignedEntry e =>
      have he : WFUnaligned e := hent
      simp only [List.flatMap_cons, entryLines, List.cons_append, List.nil_append]
      rw [parseBlockLoop]
      rw [isEmpty_false_of_ne_nil _ (joinSpaces_cons_ne_nil _ _ (by simp))]
      simp only [Bool.false_eq_true, if_false, splitWS_eLine e he]
      have h1 : (['e'] = ['s']) = False := by simp
      have h2 : (['e'] = ['i']) = False := by simp
      have h3 : (['e'] = ['e']) = True := by simp
      simp only [h1, h2, h3, if_false, if_true, updateFromELine_rt e acc he]
      have := ih (acc ++ [MAFBlockEntry.unalignedEntry e]) more hrest
      simpa using this

theorem toLinesAux_no_newline (l : List Char) (h : '\n' ∉ l) :
    ∀ acc rest, toLinesAux (l ++ rest) acc = toLinesAux rest (l.reverse ++ acc) := by
  induction l with
  | nil => intro acc rest; simp
  | cons c cs ih =>
    intro acc rest
    have hc : ¬(c = '\n') := fun hcc => h (hcc ▸ List.mem_cons_self c cs)
    have hcs : '\n' ∉ cs := fun hcc => h (List.mem_cons_of_mem c hcc)
    simp only [List.cons_append, toLinesAux, hc, if_false]
    have h2 := ih hcs (c :: acc) rest
    simp only [List.append_eq] at h2 ⊢
    rw [h2]
    simp

theorem toLines_flat (lines : List (List Char))
    (h : ∀ l ∈ lines, '\n' ∉ l ∧ l.getLast? ≠ some '\r') :
    toLines ((lines.map (fun l => l ++ ['\n'])).flatten) = lines := by
  induction lines with
  | nil => rfl
  | cons l ls ih =>
    obtain ⟨hn, hr⟩ := h l (List.mem_cons_self _ _)
    have hrest := fun x hx => h x (List.mem_cons_of_mem _ hx)
    simp only [List.map_cons, List.flatten_cons, List.append_assoc, toLines]
    rw [toLinesAux_no_newline l hn]
    simp only [List.cons_append, List.nil_append, toLinesAux, if_pos rfl,
      List.append_nil, List.reverse_reverse]
    rw [stripCR, if_neg hr]
    have ihx := ih hrest
    rw [toLines] at ihx
    simp only [if_true, List.append_eq, List.nil_append]
    rw [ihx]

theorem mem_joinSpaces (toks : List (List Char)) (hts : ∀ t ∈ toks, isToken t) :
    ∀ c ∈ joinSpaces toks, c = ' ' ∨ isWS c = false := by
  induction toks with
  | nil => intro c hc; simp [joinSpaces] at hc
  | cons t ts ih =>
    intro c hc
    have ht := (isToken_iff t).mp (hts t (List.mem_cons_self _ _))
    have htall := ht.2
    rw [List.all_eq_true] at htall
    cases ts with
    | nil =>
      rw [joinSpaces_single] at hc
      exact Or.inr (by simpa using htall c hc)
    | cons u us =>
      rw [joinSpaces_cons_cons] at hc
      rcases List.mem_append.mp hc with h1 | h2
      · exact Or.inr (by simpa using htall c h1)
      · rcases List.mem_cons.mp h2 with rfl | h3
        · exact Or.inl rfl
        · exact ih (fun x hx => hts x (List.mem_cons_of_mem _ hx)) c h3

theorem lineOK_joinSpaces (toks : List (List Char)) (hts : ∀ t ∈ toks, isToken t) :
    '\n' ∉ joinSpaces toks ∧ (joinSpaces toks).getLast? ≠ some '\r' := by
  constructor
  · intro hmem
    rcases mem_joinSpaces toks hts _ hmem with h | h
    · exact absurd h (by decide)
    · exact absurd h (by decide)
  · intro hlast
    have hmem : '\r' ∈ joinSpaces toks := List.mem_of_mem_getLast? (by rw [hlast]; rfl)
    rcases mem_joinSpaces toks hts _ hmem with h | h
    · exact absurd h (by decide)
    · exact absurd h (by decide)

theorem joinSpaces_cons_head (t : List Char) (ts : List (List Char)) :
    ∃ r, joinSpaces (t :: ts) = t ++ r := by
  cases ts with
  | nil => exact ⟨[], by simp [joinSpaces_single]⟩
  | cons u us => exact ⟨' ' :: joinSpaces (u :: us), joinSpaces_cons_cons t u us⟩

/-- The header tokens of the serialized block. -/
def headerTokens (b : MAFBlock) : List (List Char) :=
  ['a'] :: b.metadata.map (fun p => p.1 ++ '=' :: p.2)

theorem headerTokens_ok (b : MAFBlock) (h : WFBlock b) :
    ∀ t ∈ headerTokens b, isToken t = true := by
  intro t ht
  rcases List.mem_cons.mp ht with rfl | ht2
  · decide
  · obtain ⟨p, hp, rfl⟩ := List.mem_map.mp ht2
    exact isToken_pair_token p (h.2.2 p hp)

theorem serializeBlockLines_eq (b : MAFBlock) :
    serializeBlockLines b = joinSpaces (headerTokens b) ::
      (b.entries.flatMap entryLines ++ [[]]) := rfl

theorem entryLines_tokens (ent : MAFBlockEntry) (h : WFEntry ent) :
    ∀ l ∈ entryLines ent, ∃ toks, l = joinSpaces toks ∧ ∀ t ∈ toks, isToken t := by
  intro l hl
  cases ent with
  | alignedEntry e =>
    obtain ⟨hseq, hal, _, _, _, _, _⟩ := (h : WFAligned e)
    simp only [entryLines] at hl
    rcases List.mem_cons.mp hl with rfl | hl2
    · refine ⟨_, rfl, ?_⟩
      intro t ht
      simp only [List.mem_cons, List.not_mem_nil, or_false] at ht
      rcases ht with rfl | rfl | rfl | rfl | rfl | rfl | rfl
      · decide
      · exact hseq
      · exact isToken_natToChars _
      · exact isToken_natToChars _
      · exact isToken_strandChar _
      · exact isToken_natToChars _
      · exact hal
    · cases hc : e.context with
      | none => rw [hc] at hl2; simp at hl2
      | some c =>
        rw [hc] at hl2
        simp only [List.mem_singleton] at hl2
        subst hl2
        refine ⟨_, rfl, ?_⟩
        intro t ht
        simp only [List.mem_cons, List.not_mem_nil, or_false] at ht
        rcases ht with rfl | rfl | rfl | rfl | rfl | rfl
        · decide
        · exact hseq
        · exact isToken_acs _
        · exact isToken_natToChars _
        · exact isToken_acs _
        · exact isToken_natToChars _
  | unalignedEntry e =>
    obtain ⟨hseq, _, _, _⟩ := (h : WFUnaligned e)
    simp only [entryLines, List.mem_singleton] at hl
    subst hl
    refine ⟨_, rfl, ?_⟩
    intro t ht
    simp only [List.mem_cons, List.not_mem_nil, or_false] at ht
    rcases ht with rfl | rfl | rfl | rfl | rfl | rfl | rfl
    · decide
    · exact hseq
    · exact isToken_natToChars _
    · exact isToken_natToChars _
    · exact isToken_strandChar _
    · exact isToken_natToChars _
    · exact isToken_ucs _

theorem serializeBlockLines_ok (b : MAFBlock) (h : WFBlock b) :
    ∀ l ∈ serializeBlockLines b, '\n' ∉ l ∧ l.getLast? ≠ some '\r' := by
  intro l hl
  rw [serializeBlockLines_eq] at hl
  rcases List.mem_cons.mp hl with rfl | hl2
  · exact lineOK_joinSpaces _ (headerTokens_ok b h)
  · rcases List.mem_append.mp hl2 with hl3 | hl4
    · obtain ⟨ent, hent, hlent⟩ := List.mem_flatMap.mp hl3
      obtain ⟨toks, rfl, htoks⟩ := entryLines_tokens ent (h.1 ent hent) l hlent
      exact lineOK_joinSpaces toks htoks
    · have : l = [] := by simpa using hl4
      subst this
      exact ⟨by simp, by simp⟩

theorem parseBlock_serialized (b : MAFBlock) (h : WFBlock b) (more : List (List Char)) :
    parseBlock (joinSpaces (headerTokens b)) (b.entries.flatMap entryLines ++ [] :: more)
      = .ok (b, more) := by
  rw [parseBlock, headerTokens, metadataFromHeader_rt b.metadata h.2.1 h.2.2,
    parseBlockLoop_serialized b.entries [] more h.1]
  simp

theorem nextMafItem_serialized (b : MAFBlock) (h : WFBlock b) :
    nextMafItem (toLines (serializeBlock b)) = .ok (.block b, []) := by
  rw [serializeBlock, toLines_flat _ (serializeBlockLines_ok b h), serializeBlockLines_eq]
  obtain ⟨r, hr⟩ := joinSpaces_cons_head ['a'] (b.metadata.map (fun p => p.1 ++ '=' :: p.2))
  rw [nextMafItem]
  have h1 : (joinSpaces (headerTokens b)).all isWS = false := by
    rw [headerTokens, hr]
    simp only [List.cons_append, List.all_cons, Bool.and_eq_false_iff]
    left
    decide
  have h2 : (joinSpaces (headerTokens b)).head? = some 'a' := by
    rw [headerTokens, hr]
    rfl
  rw [h1]
  simp only [Bool.false_eq_true, if_false, h2]
  rw [if_neg (by decide : ¬(some 'a' = some '#')), if_pos trivial]
  rw [parseBlock_serialized b h []]

/-! ## Driver loops (src/coverage.rs, src/dup_blocks.rs, src/filter.rs) -/

/-- The shared driver loop `while let Ok(item) = next_maf_item(input)` used
by `coverage`, `output_merged_consensus_blocks`, `output_dup_blocks` and
`filter`: collect the items processed; the loop exits on ANY `Err`, so a
parse failure ends it exactly like end-of-input. The fuel only bounds the
recursion; `driverItems` supplies more than enough. -/
def itemsWhileOk : Nat → List (List Char) → List MAFItem
  | 0, _ => []
  | fuel + 1, lines =>
    match nextMafItem lines with
    | .ok (item, rest) => item :: itemsWhileOk fuel rest
    | _ => []

def driverItems (lines : List (List Char)) : List MAFItem :=
  itemsWhileOk (lines.length + 1) lines

/-! ## Range index and BED parsing (src/lib.rs) -/

/-- `Range` from src/lib.rs: a half-open genomic interval; its `Ord` is
lexicographic on `(seq, start, end)`. -/
structure Range where
  seq : List Char
  start : Nat
  «end» : Nat
deriving DecidableEq, Repr

/-- The derived lexicographic `Ord` on `Range` (ascending `end`). -/
def rangeLt (a b : Range) : Bool :=
  lexLtChars a.seq b.seq ||
    (a.seq = b.seq &&
      (decide (a.start < b.start) ||
        (a.start = b.start && decide (a.«end» < b.«end»))))

def rangeLe (a b : Range) : Bool := rangeLt a b || a = b

/-- `Range::overlaps`. -/
def Range.overlaps (r : Range) (chrom : List Char) (position : Nat) : Bool :=
  r.seq = chrom && decide (r.start ≤ position) && decide (r.«end» > position)

/-- `Range::precedes`. -/
def Range.precedes (r : Range) (chrom : List Char) (position : Nat) : Bool :=
  lexLtChars r.seq chrom || decide (r.«end» ≤ position)

/-- `Range::succeeds`. -/
def Range.succeeds (r : Range) (chrom : List Char) (position : Nat) : Bool :=
  lexLtChars chrom r.seq || decide (r.start > position)

/-- `BTreeSet<Range>` insertion: keep the list sorted by the `Ord` above and
drop an exact duplicate. -/
def bedInsert (r : Range) : List Range → List Range
  | [] => [r]
  | r2 :: rest =>
    if rangeLt r r2 then r :: r2 :: rest
    else if rangeLt r2 r then r2 :: bedInsert r rest
    else r2 :: rest

/-- The `parse_bed` loop (src/lib.rs lines 39-57; src/coverage.rs lines
137-154 is the same code): more than 9 fields and unparsable numbers are
`expect`/`panic!` aborts, not errors; a line with 1 or 2 fields hits an
out-of-bounds index; blank lines are skipped. -/
def parseBedLoop : List (List Char) → List Range → POut (List Range)
  | [], acc => .ok acc
  | line :: rest, acc =>
    match splitWS line with
    | [] => parseBedLoop rest acc
    | f0 :: frest =>
      if (f0 :: frest).length > 9 then .panic "BED12 input not supported"
      else
        match frest.head? with
        | none => .panic "index out of bounds"
        | some startTok =>
          match parseU64 startTok with
          | none => .panic "Can't parse start position"
          | some start =>
            match (f0 :: frest).get? 2 with
            | none => .panic "index out of bounds"
            | some endTok =>
              match parseU64 endTok with
              | none => .panic "Can't parse start position"
              | some sEnd =>
                parseBedLoop rest
                  (bedInsert { seq := f0, start := start, «end» := sEnd } acc)

def parseBed (lines : List (List Char)) : POut (List Range) :=
  parseBedLoop lines []

/-! ## Decidability instances for the well-formedness predicates -/

instance (e : MAFBlockAlignedEntry) : Decidable (WFAligned e) := by
  unfold WFAligned
  infer_instance

instance (e : MAFBlockUnalignedEntry) : Decidable (WFUnaligned e) := by
  unfold WFUnaligned
  infer_instance

instance (e : MAFBlockEntry) : Decidable (WFEntry e) := by
  cases e with
  | alignedEntry a => exact (inferInstance : Decidable (WFAligned a))
  | unalignedEntry a => exact (inferInstance : Decidable (WFUnaligned a))

instance (p : List Char × List Char) : Decidable (WFPair p) := by
  unfold WFPair
  infer_instance

instance (b : MAFBlock) : Decidable (WFBlock b) := by
  unfold WFBlock
  infer_instance

/-- `serialize(parse(x))` for a block text, the composition the round-trip
claim is about: parse the text's first item and serialize it back. -/
def reserialize (x : List Char) : Option (List Char) :=
  match nextMafItem (toLines x) with
  | .ok (.block b, _) => some (serializeBlock b)
  | _ => none

/-- A concrete well-formed block exercising metadata, context and an
unaligned entry. -/
def blockW : MAFBlock :=
  { entries := [
      .alignedEntry { alignment := "AC-GT".toList, seq := "hg16.chr7".toList,
                      start := 27, alignedLength := 4, sequenceSize := 158,
                      strand := .positive,
                      context := some { leftStatus := .firstInSequence,
                                        leftCount := 0,
                                        rightStatus := .contiguous,
                                        rightCount := 3 },
                      qualities := none },
      .unalignedEntry { seq := "mm4.chr6".toList, start := 53, size := 13,
                        strand := .negative, sequenceSize := 151,
                        status := .insertion } ],
    metadata := [("pass".toList, "2".toList), ("score".toList, "23.0".toList)] }

/-! ## Claim theorems -/

/-- C1: the claim says no parse failure is silently treated as
end-of-stream by the block-processing drivers. The code is the other way:
the shared `while let Ok(item) = next_maf_item(input)` loop exits on the
first `Err`, indistinguishably from end-of-input. On a stream whose first
line is malformed but which contains a well-formed block right after, the
drivers process zero items and surface nothing, even though `next_maf_item`
reports an `UnexpectedLine` error there and the rest of the stream parses. -/
theorem C1_parse_failure_swallowed :
    driverItems (toLines "z bad line\na\ns hg.chr1 0 1 + 5 A\n\n".toList) = [] ∧
    nextMafItem (toLines "z bad line\na\ns hg.chr1 0 1 + 5 A\n\n".toList) =
      .err (.unexpectedLine "z bad line".toList) ∧
    (match nextMafItem
        (List.drop 1 (toLines "z bad line\na\ns hg.chr1 0 1 + 5 A\n\n".toList)) with
     | .ok (.block _, _) => true
     | _ => false) = true := by
  refine ⟨by decide, by decide, by decide⟩

/-- C2 counterexample: the text `a\ns s.c 01 1 + 5 A\n\n` is syntactically
valid, single-space separated and key-sorted (no metadata at all), yet
`serialize(parse(x))` prints the start field `01` back as `1`, so the round
trip changes the text. -/
theorem C2_roundtrip_counterexample :
    reserialize "a\ns s.c 01 1 + 5 A\n\n".toList ≠
      some "a\ns s.c 01 1 + 5 A\n\n".toList ∧
    reserialize "a\ns s.c 01 1 + 5 A\n\n".toList =
      some "a\ns s.c 1 1 + 5 A\n\n".toList := by
  constructor
  · decide
  · decide

/-- C2 amended: for every block text in the serializer's canonical image —
the serialization of a well-formed block, i.e. canonical-numeral fields,
single-space separation, sorted distinct metadata keys with `=`-free values
— parsing followed by serializing reproduces the text exactly. -/
theorem C2_roundtrip_amended (b : MAFBlock) (h : WFBlock b) :
    reserialize (serializeBlock b) = some (serializeBlock b) := by
  rw [reserialize, nextMafItem_serialized b h]

/-- C2 witness: the amended round trip evaluated on a concrete block. -/
theorem C2_roundtrip_amended_witness :
    WFBlock blockW ∧ reserialize (serializeBlock blockW) = some (serializeBlock blockW) :=
  ⟨by decide, C2_roundtrip_amended blockW (by decide)⟩

/-- C7 counterexample: a `q` body line is rejected through the very same
`BadLineType` error (the spec's UnrecognizedLineKind) that an arbitrary
unknown tag such as `z` produces; only the payload token differs, exactly
as for any unknown tag, so the error is not distinguishable from
UnrecognizedLineKind. -/
theorem C7_q_line_conflated :
    parseBlock "a".toList ["q hg.chr1 27 m".toList] = .err (.badLineType ['q']) ∧
    parseBlock "a".toList ["z hg.chr1 27 m".toList] = .err (.badLineType ['z']) := by
  constructor
  · decide
  · decide

/-- C7 amended: a block body line whose first whitespace token is `q` is
rejected with the same `UnrecognizedLineKind`/`BadLineType` error used for
every unknown first token, carrying the token `q` as its payload; `q` lines
get no distinct treatment (the `q` arm in `parse_block` is commented out). -/
theorem C7_q_line_amended (line : List Char) (rest : List (List Char))
    (entries : List MAFBlockEntry) (hne : line.isEmpty = false)
    (hq : ∃ others, splitWS line = ['q'] :: others) :
    parseBlockLoop (line :: rest) entries = .err (.badLineType ['q']) := by
  obtain ⟨others, hsp⟩ := hq
  rw [parseBlockLoop, hne]
  simp only [Bool.false_eq_true, if_false, hsp]
  rfl

/-- C7 witness: the amended statement evaluated on a concrete `q` line. -/
theorem C7_q_line_amended_witness :
    parseBlockLoop ["q hg.chr1 27 m".toList] [] = .err (.badLineType ['q']) :=
  C7_q_line_amended "q hg.chr1 27 m".toList [] [] (by decide)
    ⟨["hg.chr1".toList, "27".toList, [Char.ofNat 109]], by decide⟩

/-- C8: the claim says malformed region input always yields a typed error
and never an unrecoverable abort. The code is the other way: `parse_bed`
`panic!`s on a line with more than 9 fields, `expect`-panics on a
non-numeric start, and hits an out-of-bounds index panic on a line with a
single field. -/
theorem C8_bed_panics :
    parseBed ["chr1 0 1 2 3 4 5 6 7 8".toList] = .panic "BED12 input not supported" ∧
    parseBed ["chr1 x 2".toList] = .panic "Can't parse start position" ∧
    parseBed ["chr1".toList] = .panic "index out of bounds" := by
  refine ⟨by decide, by decide, by decide⟩

/-! ## Consensus merging (src/dup_blocks.rs) -/

/-- Per-column tallies of the four bases. -/
structure BaseCounts where
  a : Nat
  c : Nat
  g : Nat
  t : Nat
deriving DecidableEq, Repr

inductive ConsensusMode
  | unanimity
  | consensus
  | mask
deriving DecidableEq, Repr

/-- `unanimous_base`. -/
def unanimousBase (baseCounts : BaseCounts) : Char :=
  if baseCounts.a > 0 ∧ baseCounts.c = 0 ∧ baseCounts.g = 0 ∧ baseCounts.t = 0 then 'A'
  else if baseCounts.a = 0 ∧ baseCounts.c > 0 ∧ baseCounts.g = 0 ∧ baseCounts.t = 0 then 'C'
  else if baseCounts.a = 0 ∧ baseCounts.c = 0 ∧ baseCounts.g > 0 ∧ baseCounts.t = 0 then 'G'
  else if baseCounts.a = 0 ∧ baseCounts.c = 0 ∧ baseCounts.g = 0 ∧ baseCounts.t > 0 then 'T'
  else 'N'

/-- The `[bool; 4]` possibility vector, indexed a, c, g, t. -/
structure Possibilities where
  p0 : Bool
  p1 : Bool
  p2 : Bool
  p3 : Bool
deriving DecidableEq, Repr

/-- The `c` step of `max_among_possibilities`. -/
def stepC (baseCounts : BaseCounts) (poss : Possibilities) (m : Nat) :
    Possibilities × Nat :=
  if poss.p1 = true ∧ m < baseCounts.c then ({ poss with p0 := false }, baseCounts.c)
  else if baseCounts.c < m then ({ poss with p1 := false }, m)
  else (poss, m)

/-- The `g` step of `max_among_possibilities`. -/
def stepG (baseCounts : BaseCounts) (poss : Possibilities) (m : Nat) :
    Possibilities × Nat :=
  if poss.p2 = true ∧ m < baseCounts.g then
    ({ poss with p0 := false, p1 := false }, baseCounts.g)
  else if baseCounts.g < m then ({ poss with p2 := false }, m)
  else (poss, m)

/-- The `t` step of `max_among_possibilities` (the source does not update
`max_so_far` here; it is the last step). -/
def stepT (baseCounts : BaseCounts) (poss : Possibilities) (m : Nat) :
    Possibilities :=
  if poss.p3 = true ∧ m < baseCounts.t then
    { poss with p0 := false, p1 := false, p2 := false }
  else if baseCounts.t < m then { poss with p3 := false }
  else poss

/-- `max_among_possibilities`: the sequential a, c, g, t scan. -/
def maxAmongPossibilities (baseCounts : BaseCounts) (poss : Possibilities) :
    Possibilities :=
  let s1 := stepC baseCounts poss (if poss.p0 then baseCounts.a else 0)
  let s2 := stepG baseCounts s1.1 s1.2
  stepT baseCounts s2.1 s2.2

/-- `consensus_base`: narrow by the species tally, then by the tie-breaker
tally, and emit the sole survivor or `N`. -/
def consensusBase (baseCounts tieBreaker : BaseCounts) : Char :=
  let possible1 := maxAmongPossibilities baseCounts
    { p0 := true, p1 := true, p2 := true, p3 := true }
  let possible := maxAmongPossibilities tieBreaker possible1
  match possible.p0, possible.p1, possible.p2, possible.p3 with
  | true, false, false, false => 'A'
  | false, true, false, false => 'C'
  | false, false, true, false => 'G'
  | false, false, false, true => 'T'
  | _, _, _, _ => 'N'

/-- The specification's reading: the maximum count among the still-possible
letters (0 when none is possible). -/
def maxOver (bc : BaseCounts) (poss : Possibilities) : Nat :=
  max (if poss.p0 then bc.a else 0)
    (max (if poss.p1 then bc.c else 0)
      (max (if poss.p2 then bc.g else 0) (if poss.p3 then bc.t else 0)))

/-- The specification's reading of one narrowing step: keep exactly the
still-possible letters whose count attains the maximum. -/
def inMaxSet (bc : BaseCounts) (poss : Possibilities) : Possibilities :=
  { p0 := poss.p0 && decide (maxOver bc poss ≤ bc.a)
    p1 := poss.p1 && decide (maxOver bc poss ≤ bc.c)
    p2 := poss.p2 && decide (maxOver bc poss ≤ bc.g)
    p3 := poss.p3 && decide (maxOver bc poss ≤ bc.t) }

/-- The letter left when exactly one survives. -/
def singleLetter (p : Possibilities) : Option Char :=
  match p.p0, p.p1, p.p2, p.p3 with
  | true, false, false, false => some 'A'
  | false, true, false, false => some 'C'
  | false, false, true, false => some 'G'
  | false, false, false, true => some 'T'
  | _, _, _, _ => none

/-- The claim's algorithm, stated the way the spec words it: species-tally
argmax set (ties included); a lone survivor wins; otherwise restrict the
block tally to the survivors and keep its argmax set; a lone survivor wins
and any remaining tie is `N`. -/
def specConsensusBase (species block : BaseCounts) : Char :=
  let s := inMaxSet species { p0 := true, p1 := true, p2 := true, p3 := true }
  match singleLetter s with
  | some ch => ch
  | none =>
    match singleLetter (inMaxSet block s) with
    | some ch => ch
    | none => 'N'

theorem stepC_char (bc : BaseCounts) (p : Possibilities) :
    stepC bc p (if p.p0 then bc.a else 0) =
      ({ p0 := p.p0 && decide
           (max (if p.p0 then bc.a else 0) (if p.p1 then bc.c else 0) ≤ bc.a),
         p1 := p.p1 && decide
           (max (if p.p0 then bc.a else 0) (if p.p1 then bc.c else 0) ≤ bc.c),
         p2 := p.p2, p3 := p.p3 },
       max (if p.p0 then bc.a else 0) (if p.p1 then bc.c else 0)) := by
  obtain ⟨a, c, g, t⟩ := bc
  obtain ⟨p0, p1, p2, p3⟩ := p
  simp only [stepC]
  cases p0 <;> cases p1 <;> split_ifs <;> simp_all <;> omega

theorem stepG_char (bc : BaseCounts) (q : Possibilities) (m : Nat)
    (h0 : q.p0 = true → bc.a = m) (h1 : q.p1 = true → bc.c = m) :
    stepG bc q m =
      ({ p0 := q.p0 && decide (max m (if q.p2 then bc.g else 0) ≤ bc.a),
         p1 := q.p1 && decide (max m (if q.p2 then bc.g else 0) ≤ bc.c),
         p2 := q.p2 && decide (max m (if q.p2 then bc.g else 0) ≤ bc.g),
         p3 := q.p3 },
       max m (if q.p2 then bc.g else 0)) := by
  obtain ⟨a, c, g, t⟩ := bc
  obtain ⟨p0, p1, p2, p3⟩ := q
  simp only [stepG] at h0 h1 ⊢
  cases p0 <;> cases p1 <;> cases p2 <;> split_ifs <;> simp_all <;> omega

theorem stepT_char (bc : BaseCounts) (q : Possibilities) (m : Nat)
    (h0 : q.p0 = true → bc.a = m) (h1 : q.p1 = true → bc.c = m)
    (h2 : q.p2 = true → bc.g = m) :
    stepT bc q m =
      { p0 := q.p0 && decide (max m (if q.p3 then bc.t else 0) ≤ bc.a),
        p1 := q.p1 && decide (max m (if q.p3 then bc.t else 0) ≤ bc.c),
        p2 := q.p2 && decide (max m (if q.p3 then bc.t else 0) ≤ bc.g),
        p3 := q.p3 && decide (max m (if q.p3 then bc.t else 0) ≤ bc.t) } := by
  obtain ⟨a, c, g, t⟩ := bc
  obtain ⟨p0, p1, p2, p3⟩ := q
  simp only [stepT] at h0 h1 h2 ⊢
  cases p0 <;> cases p1 <;> cases p2 <;> cases p3 <;> split_ifs <;> simp_all <;> omega

theorem maxAmong_eq_inMaxSet (bc : BaseCounts) (poss : Possibilities) :
    maxAmongPossibilities bc poss = inMaxSet bc poss := by
  obtain ⟨a, c, g, t⟩ := bc
  obtain ⟨p0, p1, p2, p3⟩ := poss
  rw [maxAmongPossibilities, stepC_char]
  rw [stepG_char _ _ _ (by intro h; simp_all <;> omega) (by intro h; simp_all <;> omega)]
  rw [stepT_char _ _ _ (by intro h; simp_all <;> omega) (by intro h; simp_all <;> omega)
    (by intro h; simp_all <;> omega)]
  simp only [inMaxSet, maxOver, Possibilities.mk.injEq]
  cases p0 <;> cases p1 <;> cases p2 <;> cases p3 <;> simp_all <;>
    (try constructor) <;> (try constructor) <;> (try constructor) <;>
    (first
      | rfl
      | omega
      | (simp only [Bool.and_assoc])
      | (simp only [decide_eq_decide]; omega)
      | (simp only [Bool.and_assoc, decide_eq_decide]; omega))

theorem consensusBase_eq_spec (bc tb : BaseCounts) :
    consensusBase bc tb = specConsensusBase bc tb := by
  simp only [consensusBase, specConsensusBase, maxAmong_eq_inMaxSet]
  generalize inMaxSet bc { p0 := true, p1 := true, p2 := true, p3 := true } = s
  obtain ⟨q0, q1, q2, q3⟩ := s
  cases q0 <;> cases q1 <;> cases q2 <;> cases q3 <;>
    first
    | (simp [inMaxSet, maxOver, singleLetter]; done)
    | (simp only [singleLetter]
       generalize inMaxSet tb _ = u
       obtain ⟨u0, u1, u2, u3⟩ := u
       cases u0 <;> cases u1 <;> cases u2 <;> cases u3 <;> rfl)

/-- The consensus letter is always one of A, C, G, T, N. -/
theorem consensusBase_mem (bc tb : BaseCounts) :
    consensusBase bc tb ∈ (['A', 'C', 'G', 'T', 'N'] : List Char) := by
  simp only [consensusBase]
  generalize maxAmongPossibilities tb (maxAmongPossibilities bc
    { p0 := true, p1 := true, p2 := true, p3 := true }) = u
  obtain ⟨u0, u1, u2, u3⟩ := u
  cases u0 <;> cases u1 <;> cases u2 <;> cases u3 <;> decide

/-- The unanimity letter is always one of A, C, G, T, N. -/
theorem unanimousBase_mem (bc : BaseCounts) :
    unanimousBase bc ∈ (['A', 'C', 'G', 'T', 'N'] : List Char) := by
  rw [unanimousBase]
  split_ifs <;> decide

/-- An all-zero tally is never unanimous for a letter. -/
theorem unanimousBase_zero : unanimousBase { a := 0, c := 0, g := 0, t := 0 } = 'N' := by
  decide

/-! ## Merging duplicate entries (`merge_dup_entries`, `get_consensus_info`) -/

/-- ASCII lower-casing. -/
def toLowerChar (c : Char) : Char :=
  if 'A' ≤ c ∧ c ≤ 'Z' then Char.ofNat (c.toNat + 32) else c

/-- Rust `u8::eq_ignore_ascii_case`. -/
def eqIgnoreCase (x y : Char) : Bool :=
  toLowerChar x = toLowerChar y

/-- `get_consensus_info`: one tally per column of the first entry, counting
each entry whose base at that column matches ignoring case (an entry
shorter than the first would be an index panic in the source; the model
reads a gap there). -/
def getConsensusInfo (entries : List MAFBlockAlignedEntry) : List BaseCounts :=
  match entries with
  | [] => []
  | e0 :: _ =>
    (List.range e0.alignment.length).map (fun i =>
      { a := entries.countP (fun e => eqIgnoreCase (e.alignment.getD i '-') 'a')
        c := entries.countP (fun e => eqIgnoreCase (e.alignment.getD i '-') 'c')
        g := entries.countP (fun e => eqIgnoreCase (e.alignment.getD i '-') 'g')
        t := entries.countP (fun e => eqIgnoreCase (e.alignment.getD i '-') 't') })

/-- The merge of one duplicated genome's entries (the body of the loop in
`merge_dup_entries`): clone the first duplicate, overwrite each alignment
column per the mode; `none` models the `alignments[0]` panic on an empty
group, which the callers never produce. -/
def mergeDupEntry (dups : List MAFBlockAlignedEntry) (blockConsensus : List BaseCounts)
    (mode : ConsensusMode) : Option MAFBlockAlignedEntry :=
  match dups with
  | [] => none
  | d0 :: _ =>
    let baseCounts := getConsensusInfo dups
    some { d0 with alignment := (List.range d0.alignment.length).map (fun i =>
      match mode with
      | .mask => 'N'
      | .unanimity => unanimousBase (baseCounts.getD i { a := 0, c := 0, g := 0, t := 0 })
      | .consensus => consensusBase (baseCounts.getD i { a := 0, c := 0, g := 0, t := 0 })
          (blockConsensus.getD i { a := 0, c := 0, g := 0, t := 0 })) }

theorem getD_map_range {α : Type} (f : Nat → α) (n i : Nat) (d : α) (h : i < n) :
    ((List.range n).map f).getD i d = f i := by
  simp [List.getD_eq_getElem?_getD, List.getElem?_map, List.getElem?_range, h]

/-- C4: the consensus-base computation is exactly the claim's algorithm —
take the species tally's maximal-count letters (ties included), narrow a
surviving tie through the block tally restricted to the survivors, and
resolve any remaining tie to `N` — and the claim's two tie-break examples
evaluate as stated. -/
theorem C4_consensus_base :
    (∀ speciesTally blockTally : BaseCounts,
      consensusBase speciesTally blockTally = specConsensusBase speciesTally blockTally) ∧
    consensusBase { a := 4, c := 4, g := 5, t := 5 } { a := 1, c := 1, g := 2, t := 1 } = 'G' ∧
    consensusBase { a := 4, c := 5, g := 4, t := 5 } { a := 1, c := 2, g := 1, t := 2 } = 'N' :=
  ⟨consensusBase_eq_spec, by decide, by decide⟩

/-- A duplicated entry that is all gap. -/
def dupE1 : MAFBlockAlignedEntry :=
  { alignment := ['-'], seq := "Alca_torda.s1".toList, start := 5,
    alignedLength := 0, sequenceSize := 50, strand := .positive,
    context := none, qualities := none }

def dupE2 : MAFBlockAlignedEntry := { dupE1 with start := 9 }

/-- A third, non-duplicated entry contributing an `A` to the block tally. -/
def otherE : MAFBlockAlignedEntry :=
  { alignment := ['A'], seq := "Gallus_gallus.c1".toList, start := 3,
    alignedLength := 1, sequenceSize := 70, strand := .positive,
    context := none, qualities := none }

/-- C9 counterexample: in Consensus mode a column where every duplicate has
a gap is NOT forced to `N`: with both duplicates gapped and another entry
contributing an `A` to the block tally, the merged base is `A`. -/
theorem C9_allgap_consensus_counterexample :
    (mergeDupEntry [dupE1, dupE2] (getConsensusInfo [dupE1, dupE2, otherE])
        .consensus).map (fun m => m.alignment) = some ['A'] ∧
    ('A' : Char) ≠ 'N' := by
  constructor
  · decide
  · decide

/-- C9 amended: every merged entry's alignment is drawn from A, C, G, T, N
only — never a gap — while seq, start, aligned_length, sequence_size and
strand are copied verbatim from the first duplicate (so aligned_length need
not equal the non-gap count); an all-gap column yields `N` under Unanimity
and Mask, while under Consensus the block tally may supply the letter. -/
theorem C9_merged_entry_amended (d0 : MAFBlockAlignedEntry)
    (ds : List MAFBlockAlignedEntry) (blockConsensus : List BaseCounts)
    (mode : ConsensusMode) (merged : MAFBlockAlignedEntry)
    (h : mergeDupEntry (d0 :: ds) blockConsensus mode = some merged) :
    (∀ ch ∈ merged.alignment, ch ∈ (['A', 'C', 'G', 'T', 'N'] : List Char)) ∧
    merged.seq = d0.seq ∧ merged.start = d0.start ∧
    merged.alignedLength = d0.alignedLength ∧
    merged.sequenceSize = d0.sequenceSize ∧ merged.strand = d0.strand ∧
    merged.alignment.length = d0.alignment.length ∧
    (∀ i, i < d0.alignment.length →
      (∀ e ∈ d0 :: ds, e.alignment.getD i '-' = '-') →
      (mode = .unanimity ∨ mode = .mask) →
      merged.alignment.getD i '-' = 'N') := by
  simp only [mergeDupEntry, Option.some.injEq] at h
  subst h
  refine ⟨?_, rfl, rfl, rfl, rfl, rfl, by simp, ?_⟩
  · intro ch hch
    simp only [List.mem_map, List.mem_range] at hch
    obtain ⟨i, hi, rfl⟩ := hch
    cases mode
    · exact unanimousBase_mem _
    · exact consensusBase_mem _ _
    · show ('N' : Char) ∈ (['A', 'C', 'G', 'T', 'N'] : List Char)
      decide
  · intro i hi hgap hmode
    rw [getD_map_range _ _ _ _ hi]
    have htally : (getConsensusInfo (d0 :: ds)).getD i { a := 0, c := 0, g := 0, t := 0 }
        = { a := 0, c := 0, g := 0, t := 0 } := by
      rw [getConsensusInfo, getD_map_range _ _ _ _ hi]
      simp only [BaseCounts.mk.injEq]
      refine ⟨?_, ?_, ?_, ?_⟩ <;>
        (rw [List.countP_eq_zero]
         intro e he
         rw [hgap e he]
         decide)
    rcases hmode with rfl | rfl
    · show unanimousBase ((getConsensusInfo (d0 :: ds)).getD i
        { a := 0, c := 0, g := 0, t := 0 }) = 'N'
      rw [htally, unanimousBase_zero]
    · rfl

/-- The merged entry for `dupE1`/`dupE2` in Unanimity mode. -/
def mergedW : MAFBlockAlignedEntry := { dupE1 with alignment := ['N'] }

/-- C9 witness: the amended invariant evaluated on a concrete merge. -/
theorem C9_merged_entry_amended_witness :
    (∀ ch ∈ mergedW.alignment, ch ∈ (['A', 'C', 'G', 'T', 'N'] : List Char)) ∧
    mergedW.seq = dupE1.seq ∧ mergedW.start = dupE1.start ∧
    mergedW.alignedLength = dupE1.alignedLength ∧
    mergedW.sequenceSize = dupE1.sequenceSize ∧ mergedW.strand = dupE1.strand ∧
    mergedW.alignment.length = dupE1.alignment.length ∧
    (∀ i, i < dupE1.alignment.length →
      (∀ e ∈ dupE1 :: [dupE2], e.alignment.getD i '-' = '-') →
      (ConsensusMode.unanimity = .unanimity ∨ ConsensusMode.unanimity = .mask) →
      mergedW.alignment.getD i '-' = 'N') :=
  C9_merged_entry_amended dupE1 [dupE2] (getConsensusInfo [dupE1, dupE2, otherE])
    .unanimity mergedW (by decide)

/-! ## Coverage accumulation (src/coverage.rs) -/

/-- `aligned_base`: the ten byte values counted as an aligned base. -/
def alignedBase (base : Char) : Bool :=
  base = 'A' || base = 'C' || base = 'G' || base = 'T' || base = 'N' ||
  base = 'a' || base = 'c' || base = 'g' || base = 't' || base = 'n'

/-- `chrom_part` (src/lib.rs) and the inline
`seq.split(".").skip(1).join(".")` in coverage.rs: drop the genome part of
a composite `genome.chrom` id. -/
def chromPart (seq : List Char) : List Char :=
  (((splitOnChar '.' seq).drop 1).intersperse ['.']).flatten

/-- The `Ord` of coverage.rs's own `Range`: `(seq, start, Reverse(end))`. -/
def covRangeLt (x y : Range) : Bool :=
  lexLtChars x.seq y.seq ||
    (x.seq = y.seq &&
      (decide (x.start < y.start) ||
        (x.start = y.start && decide (y.«end» < x.«end»))))

/-- `MAFCoverage::in_range`: with no range set every position passes; with
one, probe for the greatest range at or before `(chrom, position,
Reverse(position + 1))` and test overlap inline. -/
def covInRange (ranges : Option (List Range)) (chrom : List Char) (position : Nat) :
    Bool :=
  match ranges with
  | none => true
  | some set =>
    let probe : Range := { seq := chrom, start := position, «end» := position + 1 }
    match (set.filter (fun r => !covRangeLt probe r)).getLast? with
    | none => false
    | some r =>
      r.seq = chrom && decide (r.start ≤ position) && decide (r.«end» > position)

/-- The column walk of `add_block_with_ref_entry` for one non-reference
genome: `i` indexes the block column, `o` is the running non-gap offset in
the reference; each reference-aligned, in-range column contributes 1 when
any of the genome's entries is aligned there. The `u64` subtraction for a
negative-strand reference is Nat subtraction here (the claims never reach
it). -/
def covLoopAux (ranges : Option (List Range)) (refE : MAFBlockAlignedEntry)
    (xs : List MAFBlockAlignedEntry) : List Char → Nat → Nat → Nat
  | [], _, _ => 0
  | ch :: restAl, i, o =>
    if !alignedBase ch then covLoopAux ranges refE xs restAl (i + 1) o
    else
      let refPos := match refE.strand with
        | .positive => refE.start + o
        | .negative => refE.sequenceSize - refE.start - o
      if !covInRange ranges (chromPart refE.seq) refPos then
        covLoopAux ranges refE xs restAl (i + 1) (o + 1)
      else
        (if xs.any (fun e => alignedBase (e.alignment.getD i '-')) then 1 else 0) +
          covLoopAux ranges refE xs restAl (i + 1) (o + 1)

/-- The coverage a single reference entry adds to one genome's total. -/
def coverageDelta (ranges : Option (List Range)) (refE : MAFBlockAlignedEntry)
    (xs : List MAFBlockAlignedEntry) : Nat :=
  covLoopAux ranges refE xs refE.alignment 0 0

/-- `add_block`: one `add_block_with_ref_entry` pass per reference entry;
the deltas for one genome sum. -/
def addBlockCoverageForGenome (ranges : Option (List Range))
    (refEntries : List MAFBlockAlignedEntry) (xs : List MAFBlockAlignedEntry) : Nat :=
  (refEntries.map (fun refE => coverageDelta ranges refE xs)).sum

theorem covLoopAux_unfiltered (refE : MAFBlockAlignedEntry)
    (xs : List MAFBlockAlignedEntry) (al : List Char) :
    ∀ i o, covLoopAux none refE xs al i o =
      (List.range al.length).countP (fun j =>
        alignedBase (al.getD j '-') &&
        xs.any (fun e => alignedBase (e.alignment.getD (i + j) '-'))) := by
  induction al with
  | nil => intro i o; simp [covLoopAux]
  | cons ch rest ih =>
    intro i o
    have hrange : List.range (ch :: rest).length
        = 0 :: (List.range rest.length).map (· + 1) := by
      rw [List.length_cons, List.range_succ_eq_map]
    rw [hrange, List.countP_cons]
    have hmap : (List.countP (fun j => alignedBase ((ch :: rest).getD j '-') &&
        xs.any (fun e => alignedBase (e.alignment.getD (i + j) '-')))
          ((List.range rest.length).map (· + 1)))
        = List.countP (fun j => alignedBase (rest.getD j '-') &&
            xs.any (fun e => alignedBase (e.alignment.getD (i + 1 + j) '-')))
          (List.range rest.length) := by
      rw [List.countP_map]
      apply List.countP_congr
      intro j _
      simp only [Function.comp]
      have h1 : (ch :: rest).getD (j + 1) '-' = rest.getD j '-' := by
        simp [List.getD]
      have h2 : i + (j + 1) = i + 1 + j := by omega
      rw [h1, h2]
    have h0 : (ch :: rest).getD 0 '-' = ch := rfl
    by_cases hab : alignedBase ch = true
    · rw [covLoopAux]
      have hcir : ∀ p, (!covInRange none (chromPart refE.seq) p) = false :=
        fun p => rfl
      simp only [hab, Bool.not_true, Bool.false_eq_true, if_false, hcir]
      rw [ih (i + 1) (o + 1), hmap]
      simp only [h0, hab, Bool.true_and, Nat.add_zero]
      omega
    · rw [covLoopAux]
      rw [Bool.not_eq_true] at hab
      simp only [hab, Bool.not_false, if_true]
      rw [ih (i + 1) o, hmap]
      simp only [h0, hab, Bool.false_and, Nat.add_zero, Bool.false_eq_true,
        if_false]

/-- C3: with no range filter and a single reference entry, adding a block
increases a genome's coverage by exactly the number of columns where the
reference is non-gap and ANY of that genome's entries is non-gap — each
column counts once no matter how many duplicate entries cover it. -/
theorem C3_coverage_count (refE : MAFBlockAlignedEntry)
    (xs : List MAFBlockAlignedEntry) (hxs : xs ≠ [])
    (hlen : ∀ e ∈ xs, e.alignment.length = refE.alignment.length) :
    addBlockCoverageForGenome none [refE] xs =
      (List.range refE.alignment.length).countP (fun j =>
        alignedBase (refE.alignment.getD j '-') &&
        xs.any (fun e => alignedBase (e.alignment.getD j '-'))) := by
  rw [addBlockCoverageForGenome]
  simp only [List.map_cons, List.map_nil, List.sum_cons, List.sum_nil, Nat.add_zero]
  rw [coverageDelta, covLoopAux_unfiltered]
  apply List.countP_congr
  intro j _
  simp [Nat.zero_add]

def covWitnessRef : MAFBlockAlignedEntry :=
  { alignment := "T-G".toList, seq := "Erythrocercus.s2093".toList,
    start := 58535, alignedLength := 2, sequenceSize := 127396,
    strand := .positive, context := none, qualities := none }

def covWitnessXs : List MAFBlockAlignedEntry :=
  [{ alignment := "TT-".toList, seq := "Gavia.s9486".toList, start := 35556,
     alignedLength := 2, sequenceSize := 49599, strand := .positive,
     context := none, qualities := none },
   { alignment := "-T-".toList, seq := "Gavia.s17".toList, start := 120,
     alignedLength := 1, sequenceSize := 900, strand := .positive,
     context := none, qualities := none }]

/-- C3 witness: a concrete block with a duplicated genome; the reference
`T-G` and the duplicates `TT-`/`-T-` are jointly non-gap only in column 0,
counted once though both duplicates cover it. -/
theorem C3_coverage_count_witness :
    covWitnessXs ≠ [] ∧
    (∀ e ∈ covWitnessXs, e.alignment.length = covWitnessRef.alignment.length) ∧
    addBlockCoverageForGenome none [covWitnessRef] covWitnessXs =
      (List.range covWitnessRef.alignment.length).countP (fun j =>
        alignedBase (covWitnessRef.alignment.getD j '-') &&
        covWitnessXs.any (fun e => alignedBase (e.alignment.getD j '-'))) :=
  ⟨by decide, by decide,
    C3_coverage_count covWitnessRef covWitnessXs (by decide) (by decide)⟩

/-! ## Range queries (src/lib.rs) and the column filter (src/filter.rs) -/

/-- `overlapping_ranges`: the greatest range at or before the query (at most
one, via `range(..=range).rev().take(1)`), chained with every range between
the query and `(seq, end, end)` inclusive. The `BTreeSet` is modelled as a
list sorted by the `(seq, start, end)` order. -/
def overlappingRanges (set : List Range) (range : Range) : List Range :=
  let e : Range := { seq := range.seq, start := range.«end», «end» := range.«end» }
  (set.filter (fun r => rangeLe r range)).reverse.take 1 ++
    set.filter (fun r => rangeLe range r && rangeLe r e)

/-- A run of kept columns. -/
structure Run where
  start : Nat
  length : Nat
deriving DecidableEq, Repr

/-- `runs.last_mut().unwrap().length += 1`; the empty case is the `unwrap`
panic, which `was_within_run = true` makes unreachable. -/
def extendLastRun : List Run → List Run
  | [] => []
  | [r] => [{ r with length := r.length + 1 }]
  | r :: rest => r :: extendLastRun rest

/-- The `while current_range.map_or(false, |r| r.precedes(..))` advance:
pull from the rest of the lazy sequence until the current range no longer
precedes the position. -/
def advanceRanges (chrom : List Char) (pos : Nat) :
    Option Range → List Range → Option Range × List Range
  | none, rs => (none, rs)
  | some r, rs =>
    if r.precedes chrom pos then
      match rs with
      | [] => (none, [])
      | r2 :: rest => advanceRanges chrom pos (some r2) rest
    else (some r, rs)

/-- The column scan of `get_filtered_columns`: enumerate the reference
alignment, sweep the candidate ranges, and grow maximal runs of kept
columns; the loop breaks when the candidates are exhausted or the current
one starts past the block's reference span. -/
def gfcLoop (chrom : List Char) (blockEnd : Nat) :
    List (Nat × Char) → Option Range → List Range → Nat → Bool → List Run → List Run
  | [], _, _, _, _, runs => runs
  | (i, c) :: rest, cur, rs, pos, wasIn, runs =>
    let s := advanceRanges chrom pos cur rs
    match s.1 with
    | none => runs
    | some r =>
      if r.succeeds chrom blockEnd then runs
      else
        if c ≠ '-' then
          if r.overlaps chrom pos then
            (if wasIn then
              gfcLoop chrom blockEnd rest (some r) s.2 (pos + 1) true
                (extendLastRun runs)
             else
              gfcLoop chrom blockEnd rest (some r) s.2 (pos + 1) true
                (runs ++ [{ start := i, length := 1 }]))
          else gfcLoop chrom blockEnd rest (some r) s.2 (pos + 1) false runs
        else gfcLoop chrom blockEnd rest (some r) s.2 pos false runs

/-- `get_filtered_columns`; `none` models the `assert!` panic on a
negative-strand reference. -/
def getFilteredColumns (refE : MAFBlockAlignedEntry) (ranges : List Range) :
    Option (List Run) :=
  if refE.strand ≠ .positive then none
  else
    let chrom := chromPart refE.seq
    let relevant := overlappingRanges ranges
      { seq := chromPart refE.seq, start := refE.start,
        «end» := refE.start + refE.alignedLength }
    let first : Option Range × List Range := match relevant with
      | [] => (none, [])
      | r :: rest => (some r, rest)
    some (gfcLoop chrom (refE.start + refE.alignedLength) refE.alignment.enum
      first.1 first.2 refE.start false [])

/-- `filter_entry_columns`: project one aligned entry onto a run of
columns. -/
def filterEntryColumns (entry : MAFBlockAlignedEntry) (run : Run) :
    MAFBlockAlignedEntry :=
  let beforeRangeOffset := ((entry.alignment.take run.start).filter
    (fun c => c ≠ '-')).length
  let insideRangeOffset := (((entry.alignment.drop run.start).take run.length).takeWhile
    (fun c => c = '-')).length
  { seq := entry.seq
    sequenceSize := entry.sequenceSize
    strand := entry.strand
    start := entry.start + beforeRangeOffset + insideRangeOffset
    alignment := (entry.alignment.drop run.start).take run.length
    alignedLength := (((entry.alignment.drop run.start).take run.length).filter
      (fun c => c ≠ '-')).length
    context := none
    qualities := none }

/-- `filter_block_columns`: the projections of the aligned entries, in
order, with the metadata map cloned. -/
def filterBlockColumns (block : MAFBlock) (run : Run) : MAFBlock :=
  { entries := block.alignedEntries.map
      (fun e => .alignedEntry (filterEntryColumns e run))
    metadata := block.metadata }

/-- `filter_block`: no aligned entries filter to nothing; otherwise one
sub-block per run of the first aligned entry (the reference). -/
def filterBlock (block : MAFBlock) (ranges : List Range) :
    Option (List MAFBlock) :=
  match block.alignedEntries with
  | [] => some []
  | refE :: _ =>
    match getFilteredColumns refE ranges with
    | none => none
    | some runs => some (runs.map (filterBlockColumns block))

/-- The spec's column-filter example entry: `CAGT-A` at start 4432333. -/
def filterExampleEntry : MAFBlockAlignedEntry :=
  { alignment := "CAGT-A".toList, seq := "Gallus_gallus.chr1".toList,
    start := 4432333, alignedLength := 5, sequenceSize := 157682039,
    strand := .positive, context := none, qualities := none }

/-- C5: the projection of an aligned entry onto a run shifts the start by
the non-gap bases before the run plus the leading gaps inside it, sets the
aligned length to the non-gap count inside the run, and takes the raw slice
as the alignment; the spec's `CAGT-A` example evaluates as claimed. -/
theorem C5_filter_entry_columns :
    (∀ (e : MAFBlockAlignedEntry) (run : Run),
      (filterEntryColumns e run).start =
        e.start + ((e.alignment.take run.start).filter (fun c => c ≠ '-')).length +
          (((e.alignment.drop run.start).take run.length).takeWhile
            (fun c => c = '-')).length ∧
      (filterEntryColumns e run).alignedLength =
        (((e.alignment.drop run.start).take run.length).filter
          (fun c => c ≠ '-')).length ∧
      (filterEntryColumns e run).alignment =
        (e.alignment.drop run.start).take run.length) ∧
    (filterEntryColumns filterExampleEntry { start := 2, length := 3 }).alignment
      = "GT-".toList ∧
    (filterEntryColumns filterExampleEntry { start := 2, length := 3 }).start
      = 4432335 ∧
    (filterEntryColumns filterExampleEntry { start := 2, length := 3 }).alignedLength
      = 2 :=
  ⟨fun e run => ⟨rfl, rfl, rfl⟩, by decide, by decide, by decide⟩

/-- C10: every sub-block the column filter emits consists exactly of the
projections of the input block's Aligned entries in their original order,
with the metadata copied unchanged, and contains no Unaligned entry. -/
theorem C10_filter_block_frame (block : MAFBlock) (ranges : List Range)
    (out : List MAFBlock) (h : filterBlock block ranges = some out) :
    ∀ sub ∈ out,
      sub.metadata = block.metadata ∧
      (∃ run, sub.entries = block.alignedEntries.map
        (fun e => MAFBlockEntry.alignedEntry (filterEntryColumns e run))) ∧
      (∀ ent ∈ sub.entries, ∃ a, ent = MAFBlockEntry.alignedEntry a) := by
  intro sub hsub
  rw [filterBlock] at h
  cases hae : block.alignedEntries with
  | nil =>
    rw [hae] at h
    simp only [Option.some.injEq] at h
    subst h
    exact absurd hsub (by simp)
  | cons refE restE =>
    rw [hae] at h
    have h2 : (match getFilteredColumns refE ranges with
        | none => none
        | some runs => some (List.map (filterBlockColumns block) runs)) = some out := h
    cases hruns : getFilteredColumns refE ranges with
    | none =>
      rw [hruns] at h2
      exact absurd h2 (by simp)
    | some runs =>
      rw [hruns] at h2
      simp only [Option.some.injEq] at h2
      subst h2
      obtain ⟨run, _, rfl⟩ := List.mem_map.mp hsub
      refine ⟨rfl, ⟨run, by simp [filterBlockColumns, hae]⟩, ?_⟩
      intro ent hent
      obtain ⟨a, _, rfl⟩ := List.mem_map.mp hent
      exact ⟨filterEntryColumns a run, rfl⟩

def fwRef : MAFBlockAlignedEntry :=
  { alignment := ['A'], seq := "g.c".toList, start := 0, alignedLength := 1,
    sequenceSize := 5, strand := .positive, context := none, qualities := none }

def fwBlock : MAFBlock :=
  { entries := [.alignedEntry fwRef], metadata := [("score".toList, "1".toList)] }

def fwRanges : List Range := [{ seq := ['c'], start := 0, «end» := 1 }]

/-- C10 witness: the frame property evaluated on a concrete filtered
block. -/
theorem C10_filter_block_frame_witness :
    (filterBlockColumns fwBlock { start := 0, length := 1 }).metadata
      = fwBlock.metadata ∧
    (∃ run, (filterBlockColumns fwBlock { start := 0, length := 1 }).entries
      = fwBlock.alignedEntries.map
        (fun e => MAFBlockEntry.alignedEntry (filterEntryColumns e run))) ∧
    (∀ ent ∈ (filterBlockColumns fwBlock { start := 0, length := 1 }).entries,
      ∃ a, ent = MAFBlockEntry.alignedEntry a) :=
  C10_filter_block_frame fwBlock fwRanges
    [filterBlockColumns fwBlock { start := 0, length := 1 }] (by decide)
    (filterBlockColumns fwBlock { start := 0, length := 1 }) (by decide)

/-! ## Order facts for the sorted range set (claim C6) -/

theorem lexLtChars_irrefl (a : List Char) : lexLtChars a a = false := by
  induction a with
  | nil => rfl
  | cons c cs ih => simp [lexLtChars, ih]

theorem rangeLt_irrefl (a : Range) : rangeLt a a = false := by
  simp [rangeLt, lexLtChars_irrefl]

theorem rangeLt_asymm (a b : Range) (h : rangeLt a b = true) :
    rangeLt b a = false := by
  simp only [rangeLt, Bool.or_eq_true, Bool.and_eq_true, decide_eq_true_eq,
    Bool.or_eq_false_iff, Bool.and_eq_false_iff, decide_eq_false_iff_not] at h ⊢
  rcases h with h1 | ⟨heq, h2⟩
  · have hba := lexLtChars_asymm _ _ h1
    have hne : b.seq ≠ a.seq := by
      rintro hbe
      rw [hbe] at h1
      rw [lexLtChars_irrefl] at h1
      exact absurd h1 (by simp)
    constructor
    · exact hba
    · left
      simp [hne]
  · constructor
    · rw [heq]
      exact lexLtChars_irrefl _
    · rcases h2 with h3 | ⟨hse, h4⟩
      · exact Or.inr ⟨by omega, Or.inl (by omega)⟩
      · exact Or.inr ⟨by omega, Or.inr (by omega)⟩

theorem rangeLe_refl (a : Range) : rangeLe a a = true := by
  simp [rangeLe]

theorem rangeLe_of_lt (a b : Range) (h : rangeLt a b = true) : rangeLe a b = true := by
  simp [rangeLe, h]

theorem rangeLe_antisymm (a b : Range) (hab : rangeLe a b = true)
    (hba : rangeLe b a = true) : a = b := by
  simp only [rangeLe, Bool.or_eq_true, decide_eq_true_eq] at hab hba
  rcases hab with h1 | h1
  · rcases hba with h2 | h2
    · rw [rangeLt_asymm a b h1] at h2
      exact absurd h2 (by simp)
    · exact h2.symm
  · exact h1

/-- In a sorted list every member is at most the last element. -/
theorem sorted_last_max (l : List Range)
    (hs : List.Pairwise (fun a b => rangeLt a b = true) l) (m : Range)
    (hm : l.getLast? = some m) : ∀ x ∈ l, rangeLe x m = true := by
  induction l with
  | nil => intro x hx; simp at hx
  | cons a rest ih =>
    intro x hx
    cases hr : rest with
    | nil =>
      subst hr
      have ham : a = m := by simpa using hm
      have hxa : x = a := by simpa using hx
      rw [hxa, ham]
      exact rangeLe_refl m
    | cons b rest2 =>
      have hm2 : rest.getLast? = some m := by
        rw [hr] at hm ⊢
        simpa using hm
      have hmem : m ∈ rest := List.mem_of_mem_getLast? (by rw [hm2]; rfl)
      rcases List.mem_cons.mp hx with rfl | hx2
      · exact rangeLe_of_lt _ _ ((List.pairwise_cons.mp hs).1 m hmem)
      · exact ih (List.pairwise_cons.mp hs).2 hm2 x hx2

/-- C6 counterexample: `overlappingRanges` violates the claimed shape. With
the set holding exactly the query range, the range is emitted twice; with
two ranges sharing the query's start, one of them has its start inside the
query's half-open bounds yet is missing from the output. -/
theorem C6_overlapping_ranges_counterexample :
    overlappingRanges [{ seq := "chr1".toList, start := 5, «end» := 10 }]
        { seq := "chr1".toList, start := 5, «end» := 10 } =
      [{ seq := "chr1".toList, start := 5, «end» := 10 },
       { seq := "chr1".toList, start := 5, «end» := 10 }] ∧
    ¬ (overlappingRanges [{ seq := "chr1".toList, start := 5, «end» := 10 }]
        { seq := "chr1".toList, start := 5, «end» := 10 }).Nodup ∧
    (overlappingRanges
        [{ seq := "chr1".toList, start := 5, «end» := 7 },
         { seq := "chr1".toList, start := 5, «end» := 8 }]
        { seq := "chr1".toList, start := 5, «end» := 10 } =
      [{ seq := "chr1".toList, start := 5, «end» := 8 }]) ∧
    (5 ≤ ({ seq := "chr1".toList, start := 5, «end» := 7 } : Range).start ∧
      ({ seq := "chr1".toList, start := 5, «end» := 7 } : Range).start < 10) ∧
    ({ seq := "chr1".toList, start := 5, «end» := 7 } : Range) ∉
      overlappingRanges
        [{ seq := "chr1".toList, start := 5, «end» := 7 },
         { seq := "chr1".toList, start := 5, «end» := 8 }]
        { seq := "chr1".toList, start := 5, «end» := 10 } := by
  refine ⟨by decide, by decide, by decide, by decide, by decide⟩

/-- C6 amended: over a sorted range set, `overlappingRanges` is at most one
leading interval — the greatest interval lexicographically at or before the
query triple — followed by exactly the intervals lying lexicographically
between the query triple and `(query.seq, query.end, query.end)` inclusive;
when the query triple itself is not a member, no interval is emitted more
than once. -/
theorem C6_overlapping_ranges_amended (set : List Range) (q : Range)
    (hs : List.Pairwise (fun a b => rangeLt a b = true) set) :
    (∃ pre, overlappingRanges set q =
        pre ++ set.filter (fun r => rangeLe q r &&
          rangeLe r { seq := q.seq, start := q.«end», «end» := q.«end» }) ∧
      pre.length ≤ 1 ∧
      (∀ m ∈ pre, m ∈ set ∧ rangeLe m q = true ∧
        ∀ x ∈ set, rangeLe x q = true → rangeLe x m = true)) ∧
    (q ∉ set → (overlappingRanges set q).Nodup) := by
  have hfs : List.Pairwise (fun a b => rangeLt a b = true)
      (set.filter (fun r => rangeLe r q)) := List.Pairwise.filter _ hs
  constructor
  · refine ⟨(set.filter (fun r => rangeLe r q)).reverse.take 1, rfl, ?_, ?_⟩
    · cases hlast : (set.filter (fun r => rangeLe r q)).reverse with
      | nil => simp
      | cons x tail => simp
    · intro m hm
      have hm2 : m ∈ (set.filter (fun r => rangeLe r q)).reverse :=
        List.mem_of_mem_take hm
      rw [List.mem_reverse] at hm2
      have hmf := List.mem_filter.mp hm2
      refine ⟨hmf.1, hmf.2, ?_⟩
      intro x hx hxq
      have hlast : (set.filter (fun r => rangeLe r q)).reverse.take 1 = [m] := by
        cases hrev : (set.filter (fun r => rangeLe r q)).reverse with
        | nil =>
          rw [hrev] at hm
          simp at hm
        | cons y tail =>
          rw [hrev] at hm
          simp only [List.take_succ_cons, List.take_zero] at hm ⊢
          have : m = y := by simpa using hm
          subst this
          rfl
      have hmlast : (set.filter (fun r => rangeLe r q)).getLast? = some m := by
        have h1 : (set.filter (fun r => rangeLe r q)).getLast?
            = (set.filter (fun r => rangeLe r q)).reverse.head? :=
          (List.head?_reverse _).symm
        rw [h1]
        cases hrev : (set.filter (fun r => rangeLe r q)).reverse with
        | nil =>
          rw [hrev] at hlast
          simp at hlast
        | cons y tail =>
          rw [hrev] at hlast
          simp only [List.take_succ_cons, List.take_zero] at hlast
          have : y = m := by simpa using hlast
          subst this
          rfl
      exact sorted_last_max _ hfs m hmlast x (List.mem_filter.mpr ⟨hx, hxq⟩)
  · intro hq
    have hnd : set.Nodup := by
      refine List.Pairwise.imp ?_ hs
      intro a b hab
      rintro rfl
      rw [rangeLt_irrefl] at hab
      exact absurd hab (by simp)
    have hnd2 : (set.filter (fun r => rangeLe q r &&
        rangeLe r { seq := q.seq, start := q.«end», «end» := q.«end» })).Nodup :=
      List.Nodup.filter _ hnd
    rw [overlappingRanges]
    cases hrev : (set.filter (fun r => rangeLe r q)).reverse with
    | nil => simpa using hnd2
    | cons y tail =>
      simp only [List.take_succ_cons, List.take_zero, List.singleton_append]
      rw [List.nodup_cons]
      refine ⟨?_, hnd2⟩
      intro hy
      have hyf := List.mem_filter.mp hy
      have hyq : rangeLe q y = true := by
        have := hyf.2
        simp only [Bool.and_eq_true] at this
        exact this.1
      have hyq2 : rangeLe y q = true := by
        have hy2 : y ∈ (set.filter (fun r => rangeLe r q)).reverse := by
          rw [hrev]
          exact List.mem_cons_self _ _
        rw [List.mem_reverse] at hy2
        exact (List.mem_filter.mp hy2).2
      have : y = q := rangeLe_antisymm y q hyq2 hyq
      subst this
      exact hq hyf.1

/-- The sorted range set of the repository's `test_overlapping_ranges`. -/
def c6set : List Range :=
  [{ seq := "chr1".toList, start := 4432333, «end» := 4432334 },
   { seq := "chr1".toList, start := 4432333, «end» := 4432335 },
   { seq := "chr1".toList, start := 4432336, «end» := 4432338 },
   { seq := "chr2".toList, start := 4, «end» := 5 }]

def c6q : Range := { seq := "chr1".toList, start := 4430000, «end» := 8000000 }

/-- C6 witness: the amended characterization evaluated on the repository's
own test data. -/
theorem C6_overlapping_ranges_amended_witness :
    (∃ pre, overlappingRanges c6set c6q =
        pre ++ c6set.filter (fun r => rangeLe c6q r &&
          rangeLe r { seq := c6q.seq, start := c6q.«end», «end» := c6q.«end» }) ∧
      pre.length ≤ 1 ∧
      (∀ m ∈ pre, m ∈ c6set ∧ rangeLe m c6q = true ∧
        ∀ x ∈ c6set, rangeLe x c6q = true → rangeLe x m = true)) ∧
    (c6q ∉ c6set → (overlappingRanges c6set c6q).Nodup) :=
  C6_overlapping_ranges_amended c6set c6q (by decide)

end MafStream
